import Mathlib

/-!
# wish: a small Unix shell

A shallow embedding of `processes-shell/wish.c` and a verification of its
behaviour: whitespace normalisation, segment splitting, redirection parsing,
built-in commands, executable lookup and the per-line dispatch loop.

Conventions of the embedding.

* A C string is the list of the characters stored before its terminating NUL
  (`CStr`).  Reading the terminator is reading past the end of the list, and
  storing NUL at index `j` truncates the list to its first `j` characters.
* A `char *` that may be `NULL` is an `Option CStr`.
* The operating system is a record of oracles (`OS`).  Every oracle receives the
  list of events the shell has produced so far, so its answers may change over
  time in an arbitrary way.
* Only the parent process is followed.  What the child does between `fork` and
  `execv` is recorded in the `fork` event.
-/

set_option autoImplicit false

namespace Wish

/-- A C string: the characters before the terminating NUL. -/
abbrev CStr := List Char

/-! ## String helpers of the C library and of wish.c -/

/-- The function `count_char` of wish.c: number of occurrences of `c`. -/
def count_char : CStr → Char → Nat
  | [], _ => 0
  | x :: rest, c => (if x = c then 1 else 0) + count_char rest c

/-- The scan of `strsep` over a non-NULL string with a one-character delimiter
set: the token before the first delimiter, and the new value of the string
pointer (the text after that delimiter, or `NULL` when there is none). -/
def strsep_scan (delim : Char) : CStr → CStr × Option CStr
  | [] => ([], none)
  | c :: rest =>
    if c = delim then ([], some rest)
    else ((c :: (strsep_scan delim rest).1), (strsep_scan delim rest).2)

/-- The library function `strsep(&p, delim)`: returns the token (or `NULL` when
`p` is `NULL`) and the new value of `p`. -/
def strsep (stringp : Option CStr) (delim : Char) : Option CStr × Option CStr :=
  match stringp with
  | none => (none, none)
  | some s => (some (strsep_scan delim s).1, (strsep_scan delim s).2)

/-- The test `strchr(s, c) != NULL`. -/
def strchr_found (s : CStr) (c : Char) : Bool :=
  s.any (fun x => decide (x = c))

/-! ## clean_whitespace -/

/-- First loop of `clean_whitespace`: advance `i` over leading blanks, tabs and
newlines.  The first argument bounds the number of iterations. -/
def skip_leading (buf : CStr) : Nat → Nat → Nat
  | 0, i => i
  | n + 1, i =>
    match buf[i]? with
    | none => i
    | some c =>
      if c = ' ' ∨ c = '\t' ∨ c = '\n' then skip_leading buf n (i + 1) else i

/-- Second loop of `clean_whitespace`: the in-place copy with read cursor `i` and
write cursor `j`.  Returns the buffer and the final `j`. -/
def squeeze_loop : Nat → CStr → Nat → Nat → CStr × Nat
  | 0, buf, _, j => (buf, j)
  | n + 1, buf, i, j =>
    match buf[i]? with
    | none => (buf, j)
    | some c =>
      -- replace tabs and newlines with spaces
      let buf1 := if c = '\t' ∨ c = '\n' then buf.set i ' ' else buf
      let ci := if c = '\t' ∨ c = '\n' then ' ' else c
      -- skip extra spaces
      if ci ≠ ' ' ∨ (0 < i ∧ buf1[i - 1]? ≠ some ' ') then
        squeeze_loop n (buf1.set j ci) (i + 1) (j + 1)
      else
        squeeze_loop n buf1 (i + 1) j

/-- Third loop of `clean_whitespace`: move `j` back over trailing blanks. -/
def strip_trailing (buf : CStr) : Nat → Nat
  | 0 => 0
  | j + 1 => if buf[j]? = some ' ' then strip_trailing buf j else j + 1

/-- The function `clean_whitespace` of wish.c, run on the buffer holding `input`;
the result is the string the buffer holds afterwards. -/
def clean_whitespace (input : CStr) : CStr :=
  let i := skip_leading input input.length 0
  let r := squeeze_loop input.length input i 0
  r.1.take (strip_trailing r.1 r.2)

/-! ## Functional description of clean_whitespace -/

/-- Blank characters: the ones `clean_whitespace` treats as whitespace. -/
def is_blank (c : Char) : Bool := c == ' ' || c == '\t' || c == '\n'

/-- What the copy loop emits for the rest `r` of the input; the flag tells
whether the character stored just before the read cursor is a space that
forbids emitting another one. -/
def sq : Bool → CStr → CStr
  | _, [] => []
  | p, c :: r =>
    if is_blank c then (if p then sq true r else ' ' :: sq true r)
    else c :: sq false r

/-- Removal of the trailing spaces of a string. -/
def rstrip : CStr → CStr
  | [] => []
  | c :: r => if c = ' ' ∧ rstrip r = [] then [] else c :: rstrip r

/-- The maximal runs of non-blank characters of `s`, in order. -/
def blank_runs (s : CStr) : List CStr :=
  (s.splitOnP is_blank).filter (fun w => !w.isEmpty)

/-- Reference normaliser, written from the specification: the maximal runs of
characters other than space, tab and newline, joined by exactly one space. -/
def normalise_ref (s : CStr) : CStr :=
  List.intercalate [' '] (blank_runs s)

/-- What `sq` emits, told on the pieces between blanks: each piece, and one
space for each blank that follows a non-empty piece (or an unset flag). -/
def emit : Bool → List CStr → CStr
  | _, [] => []
  | _, [h] => h
  | p, h :: h2 :: t => h ++ (if h = [] ∧ p = true then [] else [' ']) ++ emit true (h2 :: t)

/-- No two adjacent spaces (structural form). -/
def double_space_free : CStr → Prop
  | a :: b :: r => ¬ (a = ' ' ∧ b = ' ') ∧ double_space_free (b :: r)
  | _ => True

/-! ## The shell: state, events and the operating system -/

/-- An open stream returned by `fopen`.  The identifier is the number of events
that preceded the call, so two calls never return the same stream. -/
structure Stream where
  id : Nat
  file : CStr
  deriving DecidableEq

/-- What the child does between `fork` and the start of the program. -/
inductive ChildAction where
  /-- The call `dup2(fileno(output), fd)`. -/
  | dup2 (output : Stream) (fd : Nat)
  /-- The call `execv(full_path, args)`. -/
  | execv (full_path : CStr) (args : List (Option CStr))
  /-- The error message, written only when `execv` has returned. -/
  | write_err
  /-- The call `exit(status)`, reached only when `execv` has returned. -/
  | exit (status : Nat)
  deriving DecidableEq

/-- The observable actions of the shell process, in the order they happen. -/
inductive Event where
  /-- The fixed error message written to standard error. -/
  | write_err
  /-- The call `fopen(file, "w")` and whether it returned a stream. -/
  | fopen (file : CStr) (ok : Bool)
  /-- The call `fclose(output)`. -/
  | fclose (output : Stream)
  /-- The call `chdir(dir)` and whether it returned 0. -/
  | chdir (dir : Option CStr) (ok : Bool)
  /-- The call `realloc(path, slots * sizeof(char *))` and whether the block moved. -/
  | realloc (slots : Nat) (moved : Bool)
  /-- The call `access(full_path, X_OK)` and whether it returned 0. -/
  | access (full_path : CStr) (ok : Bool)
  /-- The call `fork()`: the program of the child and the value returned to the
  parent (`-1` when no child was created). -/
  | fork (child : List ChildAction) (pid : Int)
  /-- The call `exit(status)` of the shell itself. -/
  | exit (status : Nat)
  /-- The call `waitpid(pid, NULL, 0)`. -/
  | waitpid (pid : Int)
  deriving DecidableEq

/-- The operating system and the allocator, as oracles over the history. -/
structure OS where
  /-- Whether `fopen(file, "w")` succeeds for a non-empty file name. -/
  fopen_w : List Event → CStr → Bool
  /-- The working directory after a successful `chdir(dir)`, `none` on failure. -/
  chdir : List Event → CStr → Option CStr
  /-- Whether `realloc` of the search-path block to `slots` pointers returns a
  block at another address (the old block is then freed). -/
  realloc_moves : List Event → Nat → Bool
  /-- Whether `access(full_path, X_OK)` returns 0. -/
  access_x : List Event → CStr → Bool
  /-- The call `fork()` in the parent: `some k` is the child pid `k + 1`, `none` is
  the failure value `-1`. -/
  fork : List Event → Option Nat

/-- The state of the shell process.  The field `path` is the block that the
variable `path` of `main` points to, slot by slot (`none` in a slot is `NULL`);
it is `none` once that block has been freed.  The field `calls` is a ghost
record of the arguments `execute_command` was called with. -/
structure Shell where
  path : Option (List (Option CStr))
  cwd : CStr
  trace : List Event
  calls : List (Option CStr)
  deriving DecidableEq

/-- How a call of `execute_command` ends. -/
inductive Outcome where
  /-- It returned `pid` to `main`. -/
  | ret (pid : Int) (st : Shell)
  /-- It terminated the process with `exit(status)`. -/
  | exited (status : Nat) (st : Shell)
  /-- It ran into behaviour that C leaves undefined (a `NULL` or freed pointer
  was used); nothing is known about what follows. -/
  | undefined (st : Shell)
  deriving DecidableEq

/-- Append an event to the history. -/
def Shell.log (st : Shell) (e : Event) : Shell :=
  { st with trace := st.trace ++ [e] }

/-- Append several events to the history. -/
def Shell.extend (st : Shell) (es : List Event) : Shell :=
  { st with trace := st.trace ++ es }

/-- The state `main` starts its loop in: `path[0] = "/bin"`, `path[1] = NULL`. -/
def initial_shell (cwd : CStr) : Shell :=
  { path := some [some ['/', 'b', 'i', 'n'], none], cwd := cwd, trace := [], calls := [] }

/-- The call `fopen(file, "w")`.  An empty file name never opens (POSIX: `ENOENT`). -/
def sys_fopen (os : OS) (tr : List Event) (file : CStr) : Bool :=
  !file.isEmpty && os.fopen_w tr file

/-- The call `chdir(dir)`.  A `NULL` argument fails (`EFAULT`). -/
def sys_chdir (os : OS) (tr : List Event) (dir : Option CStr) : Option CStr :=
  match dir with
  | none => none
  | some d => os.chdir tr d

/-- The value `fork()` returns to the parent. -/
def sys_fork (os : OS) (tr : List Event) : Int :=
  match os.fork tr with
  | some k => (k : Int) + 1
  | none => -1

/-! ## execute_command -/

/-- The name `exit`. -/
def kw_exit : CStr := ['e', 'x', 'i', 't']

/-- The name `cd`. -/
def kw_cd : CStr := ['c', 'd']

/-- The name `path`. -/
def kw_path : CStr := ['p', 'a', 't', 'h']

/-- The conditional `if (output != stdout) fclose(output);`. -/
def close_output (output : Option Stream) (st : Shell) : Shell :=
  match output with
  | some f => st.log (.fclose f)
  | none => st

/-- Result of the first half of `execute_command` (lines 128-171). -/
inductive Parsed where
  /-- The function has returned 0 already. -/
  | returned (st : Shell)
  /-- The segment holds a command: the state, the stream `output` (`none` is
  `stdout`), `argc`, and the array `args` with its `NULL` terminator. -/
  | command (st : Shell) (output : Option Stream) (argc : Nat) (args : List (Option CStr))
  deriving DecidableEq

/-- The loop `for (i = 1; i < argc; i++) args[i] = strsep(&command, " ");`, with
the number of iterations left as first argument. -/
def parse_args : Nat → Option CStr → List (Option CStr)
  | 0, _ => []
  | n + 1, command => (strsep command ' ').1 :: parse_args n (strsep command ' ').2

/-- Lines 151-171 of `execute_command`: normalise the command part, return on an
empty one, otherwise build `argc` and `args`. -/
def parse_command (st : Shell) (output : Option Stream) (command : CStr) : Parsed :=
  let command := clean_whitespace command
  if command.isEmpty then
    match output with
    | some f => .returned ((st.log (.fclose f)).log .write_err)
    | none => .returned st
  else
    let argc := count_char command ' ' + 1
    let command_name := (strsep (some command) ' ').1
    let args := command_name :: parse_args (argc - 1) (strsep (some command) ' ').2 ++ [none]
    .command st output argc args

/-- Lines 128-171 of `execute_command` for a non-`NULL` segment: the redirection
is split off, checked and opened, then the command part is parsed. -/
def parse_segment (os : OS) (st : Shell) (seg : CStr) : Parsed :=
  let command := (strsep_scan '>' seg).1
  match (strsep_scan '>' seg).2 with
  | none => parse_command st none command
  | some raw =>
    let output_file := clean_whitespace raw
    if strchr_found output_file '>' || strchr_found output_file ' ' then
      .returned (st.log .write_err)
    else if sys_fopen os st.trace output_file then
      parse_command (st.log (.fopen output_file true)) (some ⟨st.trace.length, output_file⟩)
        command
    else
      .returned ((st.log (.fopen output_file false)).log .write_err)

/-- Lines 202-212: the cleanup after a built-in command. -/
def builtin_cleanup (st : Shell) (flag : Nat) (output : Option Stream) : Outcome :=
  .ret 0 (close_output output (if flag = 1 then st.log .write_err else st))

/-- The program of the child (lines 227-234). -/
def child_program (output : Option Stream) (full_path : CStr) (args : List (Option CStr)) :
    List ChildAction :=
  (match output with
    | some f => [ChildAction.dup2 f 1, ChildAction.dup2 f 2]
    | none => []) ++
  [ChildAction.execv full_path args, ChildAction.write_err, ChildAction.exit 1]

/-- Lines 218-221: the candidate `<dir>/<command_name>` built with `strcpy` and
`strcat`. -/
def full_path_of (dir command_name : CStr) : CStr :=
  dir ++ ['/'] ++ command_name

/-- Lines 214-254: the walk over the slots of the search-path block. -/
def launch (os : OS) (command_name : CStr) (args : List (Option CStr))
    (output : Option Stream) : List (Option CStr) → Shell → Outcome
  | [], st => .undefined st
  | none :: _, st => .ret 0 (close_output output (st.log .write_err))
  | some dir :: rest, st =>
    let full_path := full_path_of dir command_name
    if os.access_x st.trace full_path then
      let st1 := st.log (.access full_path true)
      let pid := sys_fork os st1.trace
      .ret pid (close_output output (st1.log (.fork (child_program output full_path args) pid)))
    else
      launch os command_name args output rest (st.log (.access full_path false))

/-- Lines 174-254 of `execute_command`: the built-in commands, then the launch. -/
def run_command (os : OS) (st : Shell) (output : Option Stream) (argc : Nat)
    (args : List (Option CStr)) : Outcome :=
  match args.head? with
  | some (some command_name) =>
    if command_name = kw_exit then
      if argc ≠ 1 then builtin_cleanup st 1 output
      else .exited 0 (st.log (.exit 0))
    else if command_name = kw_cd then
      let arg := (args.get? 1).join
      match sys_chdir os st.trace arg with
      | some d =>
        builtin_cleanup { st.log (.chdir arg true) with cwd := d } (if argc ≠ 2 then 1 else 0)
          output
      | none => builtin_cleanup (st.log (.chdir arg false)) 1 output
    else if command_name = kw_path then
      match st.path with
      | none => .undefined st
      | some _ =>
        let moved := os.realloc_moves st.trace argc
        let slots := (List.range argc).map (fun i => (args.get? (i + 1)).join)
        builtin_cleanup
          { st.log (.realloc argc moved) with path := if moved then none else some slots } 0
          output
    else
      match st.path with
      | none => .undefined st
      | some slots => launch os command_name args output slots st
  | _ => .undefined st

/-- The function `execute_command` of wish.c.  The search path is the block
`main` points to, held in the state. -/
def execute_command (os : OS) (st : Shell) (command : Option CStr) : Outcome :=
  match command with
  | none => .undefined st
  | some seg =>
    match parse_segment os st seg with
    | .returned st1 => .ret 0 st1
    | .command st1 output argc args => run_command os st1 output argc args

/-! ## The loop of main -/

/-- How the dispatch loop of one line ends. -/
inductive Dispatch where
  /-- Every iteration has run; the array `pids` is complete. -/
  | complete (st : Shell) (pids : List Int)
  /-- A segment terminated the process. -/
  | exited (status : Nat) (st : Shell)
  /-- A segment ran into undefined behaviour. -/
  | undefined (st : Shell)
  deriving DecidableEq

/-- How the processing of one line ends. -/
inductive LineResult where
  /-- The loop of `main` goes on to read the next line. -/
  | next (st : Shell)
  /-- The process has terminated. -/
  | exited (status : Nat) (st : Shell)
  /-- Undefined behaviour was reached. -/
  | undefined (st : Shell)
  deriving DecidableEq

/-- Lines 61-64: the loop that calls `execute_command` on each `strsep` token.
The first argument is the number of iterations left. -/
def dispatch_loop (os : OS) : Nat → Shell → Option CStr → List Int → Dispatch
  | 0, st, _, pids => .complete st pids
  | n + 1, st, input, pids =>
    let command := (strsep input '&').1
    match execute_command os { st with calls := st.calls ++ [command] } command with
    | .ret pid st1 => dispatch_loop os n st1 (strsep input '&').2 (pids ++ [pid])
    | .exited status st1 => .exited status st1
    | .undefined st1 => .undefined st1

/-- Lines 67-71: the loop that waits for every non-zero entry of `pids`. -/
def wait_all : List Int → Shell → Shell
  | [], st => st
  | pid :: rest, st =>
    if pid ≠ 0 then wait_all rest (st.log (.waitpid pid)) else wait_all rest st

/-- What follows the dispatch loop in the body of the loop of `main`. -/
def finish_line : Dispatch → LineResult
  | .complete st pids => .next (wait_all pids st)
  | .exited status st => .exited status st
  | .undefined st => .undefined st

/-- Lines 56-73: the body of the loop of `main` for one line read by `getline`. -/
def process_line (os : OS) (st : Shell) (input : CStr) : LineResult :=
  finish_line (dispatch_loop os (count_char input '&' + 1) st (some input) [])

/-- The loop of `main` over the lines `getline` delivers before end of input;
at end of input the process calls `exit(0)`. -/
def main_loop (os : OS) : List CStr → Shell → LineResult
  | [], st => .exited 0 (st.log (.exit 0))
  | line :: rest, st =>
    match process_line os st line with
    | .next st1 => main_loop os rest st1
    | .exited status st1 => .exited status st1
    | .undefined st1 => .undefined st1

/-! ## Auxiliary definitions for the statements -/

/-- The state an outcome of `execute_command` carries. -/
def Outcome.state : Outcome → Shell
  | .ret _ st => st
  | .exited _ st => st
  | .undefined st => st

/-- The state in which the processing of a line ends. -/
def LineResult.state : LineResult → Shell
  | .next st => st
  | .exited _ st => st
  | .undefined st => st

/-- The state in which the dispatch loop ends. -/
def Dispatch.state : Dispatch → Shell
  | .complete st _ => st
  | .exited _ st => st
  | .undefined st => st

/-- The state a parse result carries. -/
def Parsed.state : Parsed → Shell
  | .returned st => st
  | .command st _ _ _ => st

/-- The tokens that `n` successive calls `strsep(&input, delim)` return. -/
def strsep_iter (delim : Char) : Nat → Option CStr → List (Option CStr)
  | 0, _ => []
  | n + 1, input => (strsep input delim).1 :: strsep_iter delim n (strsep input delim).2

/-- The events of probing the candidates `d/c` for the directories `ds` in
order, each found not executable. -/
def probes_failed (c : CStr) (ds : List CStr) : List Event :=
  ds.map (fun d => Event.access (full_path_of d c) false)

/-- The events `if (output != stdout) fclose(output);` produces. -/
def closing (output : Option Stream) : List Event :=
  match output with
  | some f => [.fclose f]
  | none => []

/-- Whether an event is a call of `fork`. -/
def Event.is_fork : Event → Bool
  | .fork _ _ => true
  | _ => false

/-- Whether an event is a call of `fopen` or `fclose`. -/
def Event.is_stream : Event → Bool
  | .fopen _ _ => true
  | .fclose _ => true
  | _ => false

/-- Whether an event is the error message. -/
def Event.is_err : Event → Bool
  | .write_err => true
  | _ => false

/-- The events that neither create a process nor touch a stream nor end or
block the shell: the error message, `chdir`, `realloc` and `access`. -/
def Event.is_quiet : Event → Bool
  | .write_err => true
  | .chdir _ _ => true
  | .realloc _ _ => true
  | .access _ _ => true
  | _ => false

/-- Whether an event is a call of `waitpid`. -/
def Event.is_wait : Event → Bool
  | .waitpid _ => true
  | _ => false

/-- The values returned by the calls of `fork` in a history, in order. -/
def fork_pids : List Event → List Int
  | [] => []
  | .fork _ pid :: rest => pid :: fork_pids rest
  | _ :: rest => fork_pids rest

/-- The arguments of the calls of `waitpid` in a history, in order. -/
def waited_pids : List Event → List Int
  | [] => []
  | .waitpid pid :: rest => pid :: waited_pids rest
  | _ :: rest => waited_pids rest

/-! ## Concrete systems, states and inputs -/

/-- An operating system in which every file opens, every directory change
succeeds and leads to the directory named, no file is executable, `fork`
returns pid 100 and `realloc` never moves the block. -/
def os_plain : OS :=
  { fopen_w := fun _ _ => true
    chdir := fun _ d => some d
    realloc_moves := fun _ _ => false
    access_x := fun _ _ => false
    fork := fun _ => some 99 }

/-- The working directory of the examples. -/
def dir_home : CStr := "/home".toList

/-- A segment with a wrong number of arguments for `cd`. -/
def seg_cd_two : CStr := "cd /tmp /var".toList

/-- An allocator that keeps the search-path block in place up to 3 pointers
(the 24 usable bytes of the smallest glibc chunk) and moves it beyond. -/
def os_relocating : OS :=
  { os_plain with realloc_moves := fun _ slots => decide (3 < slots) }

/-- A line setting a search path of three directories. -/
def line_path_three : CStr := "path /a /b /c\n".toList

/-- A line with an external command. -/
def line_foo : CStr := "foo\n".toList

/-- A system in which `/b/foo` is the only executable file. -/
def os_b_foo : OS :=
  { os_plain with access_x := fun _ p => decide (p = "/b/foo".toList) }

/-- A shell whose search path is `/a`, `/b`, `/c`. -/
def shell_abc : Shell :=
  { path := some [some "/a".toList, some "/b".toList, some "/c".toList, none]
    cwd := dir_home, trace := [], calls := [] }

/-- The segment `exit`. -/
def seg_exit : CStr := "exit".toList

/-- A segment with two redirection operators. -/
def seg_two_redirects : CStr := "cmd1 > a > b".toList

/-- A segment whose redirection target is missing. -/
def seg_no_target : CStr := "ls >   ".toList

/-- A line of blanks and `&` only. -/
def line_blank : CStr := " \t& &\n".toList

/-- A segment with a command, two arguments and irregular blanks. -/
def seg_echo : CStr := "  echo \t hi   there\n".toList

/-- A segment `cd` with a redirection. -/
def seg_cd_redirect : CStr := "cd /tmp > out".toList

/-- A segment with a redirection and no command. -/
def seg_only_target : CStr := "  > out".toList

/-- A system in which `/bin/echo` is the only executable file. -/
def os_bin_echo : OS :=
  { os_plain with access_x := fun _ p => decide (p = "/bin/echo".toList) }

/-- A segment with a command and a redirection. -/
def seg_echo_redirect : CStr := "echo hi > out.txt".toList

/-- A segment `exit` with a redirection. -/
def seg_exit_redirect : CStr := "exit > out".toList

/-- The line `path` with no argument. -/
def line_path_none : CStr := "path\n".toList

/-- The state of the shell after `path /a /b /c` under `os_relocating`: the
block of `main` has been freed. -/
def shell_after_relocation : Shell :=
  { path := none, cwd := dir_home, trace := [.realloc 4 true],
    calls := [some line_path_three] }

/-- A system in which `/bin/ls` is executable and `fork` fails. -/
def os_fork_fails : OS :=
  { os_plain with
    access_x := fun _ p => decide (p = "/bin/ls".toList)
    fork := fun _ => none }

/-- The line `ls`. -/
def line_ls : CStr := "ls\n".toList

/-- A line whose first segment is `exit`. -/
def line_exit_first : CStr := "exit&ls\n".toList


/-! ## Lemmas on clean_whitespace -/

theorem is_blank_iff (c : Char) : is_blank c = true ↔ (c = ' ' ∨ c = '\t' ∨ c = '\n') := by
  simp [is_blank, or_assoc]

theorem getElem_append_cons_length (A : CStr) (c : Char) (R : CStr) :
    (A ++ c :: R)[A.length]? = some c := by
  rw [List.getElem?_append_right (Nat.le_refl _)]
  simp

theorem skip_leading_spec (R : CStr) : ∀ (A : CStr) (n : Nat), R.length ≤ n →
    skip_leading (A ++ R) n A.length = A.length + (R.takeWhile is_blank).length := by
  induction R with
  | nil =>
    intro A n _
    cases n <;> simp [skip_leading]
  | cons c R ih =>
    intro A n hn
    cases n with
    | zero => simp at hn
    | succ n =>
      have hget := getElem_append_cons_length A c R
      simp only [skip_leading, hget]
      by_cases hb : is_blank c = true
      · have hb2 := (is_blank_iff c).1 hb
        rw [if_pos hb2]
        have h := ih (A ++ [c]) n (by simpa using hn)
        simp only [List.append_assoc, List.singleton_append, List.length_append,
          List.length_singleton] at h
        rw [h, List.takeWhile_cons_of_pos hb]
        simp; omega
      · have hb2 : ¬ (c = ' ' ∨ c = '\t' ∨ c = '\n') := fun h => hb ((is_blank_iff c).2 h)
        rw [if_neg hb2, List.takeWhile_cons_of_neg hb]
        simp

/-- The guard `i > 0 && input[i-1] != ' '` read on a buffer whose first `i`
characters are `A`. -/
theorem prev_guard_iff (A X : CStr) :
    (0 < A.length ∧ (A ++ X)[A.length - 1]? ≠ some ' ') ↔
      ¬ (A = [] ∨ A.getLast? = some ' ') := by
  rcases List.eq_nil_or_concat A with h | ⟨B, b, h⟩
  · subst h; simp
  · subst h
    simp only [List.concat_eq_append]
    have h1 : (B ++ [b] ++ X)[(B ++ [b]).length - 1]? = some b := by
      have := getElem_append_cons_length B b X
      simpa using this
    rw [h1]
    simp

theorem set_append_cons_length (A : CStr) (c d : Char) (R : CStr) :
    (A ++ c :: R).set A.length d = A ++ d :: R := by
  induction A with
  | nil => simp
  | cons a A ih => simp [ih]

theorem set_prefix_append (A : CStr) (c : Char) (R : CStr) (j : Nat) (hj : j ≤ A.length) :
    (A ++ c :: R).set j c = ((A ++ [c]).set j c) ++ R := by
  have h : A ++ c :: R = (A ++ [c]) ++ R := by simp
  rw [h, List.set_append]
  simp; omega

theorem take_succ_set_concat (A : CStr) (c : Char) (j : Nat) (hj : j ≤ A.length) :
    ((A ++ [c]).set j c).take (j + 1) = A.take j ++ [c] := by
  induction A generalizing j with
  | nil =>
    have : j = 0 := by simpa using hj
    subst this; simp
  | cons a A ih =>
    cases j with
    | zero => simp
    | succ j =>
      have := ih j (by simpa using hj)
      simpa using this

theorem getLast_set_concat (A : CStr) (c : Char) (j : Nat) :
    ((A ++ [c]).set j c).getLast? = some c := by
  rw [List.getLast?_eq_getElem?, List.getElem?_set]
  simp only [List.length_set, List.length_append, List.length_singleton, Nat.add_sub_cancel]
  split
  · simp; omega
  · exact getElem_append_cons_length A c []

/-- Invariant of the copy loop: with the first `i` cells `A`, the unread rest `R`
and write cursor `j ≤ i`, the loop ends with the first `j` cells followed by
what `sq` emits for `R`. -/
theorem squeeze_loop_spec (R : CStr) : ∀ (A : CStr) (n j : Nat) (p : Bool),
    R.length ≤ n → j ≤ A.length →
    (p = true ↔ (A = [] ∨ A.getLast? = some ' ')) →
    (squeeze_loop n (A ++ R) A.length j).1.take (squeeze_loop n (A ++ R) A.length j).2
        = A.take j ++ sq p R
      ∧ (squeeze_loop n (A ++ R) A.length j).2 ≤
          (squeeze_loop n (A ++ R) A.length j).1.length := by
  induction R with
  | nil =>
    intro A n j p _ hj _
    cases n <;> simp [squeeze_loop, sq, hj]
  | cons c R ih =>
    intro A n j p hn hj hp
    cases n with
    | zero => simp at hn
    | succ n =>
      have hn2 : R.length ≤ n := by simpa using hn
      have hget := getElem_append_cons_length A c R
      have hlen : ∀ d : Char, (A ++ [d]).length = A.length + 1 := fun d => by simp
      by_cases hb : is_blank c = true
      · -- a blank: stored as a space, emitted only after a non-space
        have hbuf1 : (if c = '\t' ∨ c = '\n' then (A ++ c :: R).set A.length ' '
            else A ++ c :: R) = A ++ ' ' :: R := by
          split
          · exact set_append_cons_length A c ' ' R
          · rename_i h
            rcases (is_blank_iff c).1 hb with h1 | h1
            · rw [h1]
            · exact absurd h1 h
        have hci : (if c = '\t' ∨ c = '\n' then ' ' else c) = ' ' := by
          split
          · rfl
          · rename_i h
            rcases (is_blank_iff c).1 hb with h1 | h1
            · exact h1
            · exact absurd h1 h
        simp only [squeeze_loop, hget, hbuf1, hci, ne_eq, not_true_eq_false, false_or,
          prev_guard_iff, ← hp]
        have hsplit : A ++ ' ' :: R = (A ++ [' ']) ++ R := by simp
        cases p with
        | true =>
          simp only [not_true_eq_false, if_false]
          have h := ih (A ++ [' ']) n j true hn2 (by simp; omega) (by simp)
          rw [hlen] at h
          rw [hsplit]
          simp only [sq, hb, if_true]
          rw [List.take_append_of_le_length hj] at h
          exact h
        | false =>
          simp only [Bool.false_eq_true, not_false_eq_true, if_true]
          rw [set_prefix_append A ' ' R j hj]
          have h := ih ((A ++ [' ']).set j ' ') n (j + 1) true hn2 (by simp; omega)
            (by simp [getLast_set_concat])
          simp only [List.length_set, hlen] at h
          simp only [sq, hb, if_true, Bool.false_eq_true, if_false]
          rw [take_succ_set_concat A ' ' j hj] at h
          simpa using h
      · -- a non-blank character is always copied
        have hnb : ¬ (c = ' ' ∨ c = '\t' ∨ c = '\n') := fun h => hb ((is_blank_iff c).2 h)
        have hc1 : ¬ (c = '\t' ∨ c = '\n') := fun h => hnb (Or.inr h)
        have hc2 : c ≠ ' ' := fun h => hnb (Or.inl h)
        simp only [squeeze_loop, hget, if_neg hc1, ne_eq, hc2, not_false_eq_true, true_or,
          if_true]
        rw [set_prefix_append A c R j hj]
        have h := ih ((A ++ [c]).set j c) n (j + 1) false hn2 (by simp; omega)
          (by simp [getLast_set_concat, hc2])
        simp only [List.length_set, hlen] at h
        simp only [sq, hb, Bool.false_eq_true, if_false]
        rw [take_succ_set_concat A c j hj] at h
        simpa using h

/-- The bound on the iterations of the first loop is never what stops it: any
bound that reaches the end of the buffer gives the same result. -/
theorem skip_leading_bound (buf : CStr) : ∀ (n m i : Nat),
    buf.length ≤ i + n → buf.length ≤ i + m →
    skip_leading buf n i = skip_leading buf m i := by
  intro n
  induction n with
  | zero =>
    intro m i hn _
    have hnone : buf[i]? = none := List.getElem?_eq_none (by omega)
    cases m <;> simp [skip_leading, hnone]
  | succ n ih =>
    intro m i hn hm
    cases hget : buf[i]? with
    | none => cases m <;> simp [skip_leading, hget]
    | some c =>
      have hi : i < buf.length := by
        by_contra hcon
        rw [List.getElem?_eq_none (by omega)] at hget
        exact Option.noConfusion hget
      cases m with
      | zero => omega
      | succ m =>
        simp only [skip_leading, hget]
        split
        · exact ih m (i + 1) (by omega) (by omega)
        · rfl

/-- The bound on the iterations of the copy loop is never what stops it. -/
theorem squeeze_loop_bound : ∀ (n m : Nat) (buf : CStr) (i j : Nat),
    buf.length ≤ i + n → buf.length ≤ i + m →
    squeeze_loop n buf i j = squeeze_loop m buf i j := by
  intro n
  induction n with
  | zero =>
    intro m buf i j hn _
    have hnone : buf[i]? = none := List.getElem?_eq_none (by omega)
    cases m <;> simp [squeeze_loop, hnone]
  | succ n ih =>
    intro m buf i j hn hm
    cases hget : buf[i]? with
    | none => cases m <;> simp [squeeze_loop, hget]
    | some c =>
      have hi : i < buf.length := by
        by_contra hcon
        rw [List.getElem?_eq_none (by omega)] at hget
        exact Option.noConfusion hget
      cases m with
      | zero => omega
      | succ m =>
        simp only [squeeze_loop, hget]
        split <;> split <;> apply ih <;> (try simp only [List.length_set]) <;> omega

theorem rstrip_concat (l : CStr) (x : Char) :
    rstrip (l ++ [x]) = if x = ' ' then rstrip l else l ++ [x] := by
  induction l with
  | nil => by_cases h : x = ' ' <;> simp [rstrip, h]
  | cons c l ih =>
    by_cases h : x = ' '
    · simp only [h, if_true] at ih ⊢
      simp [rstrip, ih]
    · simp only [h, if_false] at ih ⊢
      simp [rstrip, ih]

theorem strip_trailing_spec (buf : CStr) : ∀ j : Nat, j ≤ buf.length →
    buf.take (strip_trailing buf j) = rstrip (buf.take j) := by
  intro j
  induction j with
  | zero => intro _; simp [strip_trailing, rstrip]
  | succ j ih =>
    intro hj
    have hlt : j < buf.length := hj
    have htake : buf.take (j + 1) = buf.take j ++ [buf[j]] := by
      rw [List.take_succ, List.getElem?_eq_getElem hlt]; rfl
    rw [htake, rstrip_concat]
    simp only [strip_trailing, List.getElem?_eq_getElem hlt, Option.some.injEq]
    by_cases h : buf[j] = ' '
    · rw [if_pos h, if_pos h]; exact ih (Nat.le_of_lt hlt)
    · rw [if_neg h, if_neg h, htake]

theorem sq_flag_irrelevant (p : Bool) (X : CStr)
    (hX : ∀ c, X.head? = some c → is_blank c = false) : sq p X = sq true X := by
  cases X with
  | nil => simp [sq]
  | cons c r =>
    have := hX c (by simp)
    simp [sq, this]

theorem head_dropWhile_blank (s : CStr) :
    ∀ c, (s.dropWhile is_blank).head? = some c → is_blank c = false := by
  intro c h
  have := List.head?_dropWhile_not is_blank s
  rw [h] at this
  simpa using this

/-- The in-place algorithm computes: drop the leading blanks, squeeze with `sq`,
strip the trailing spaces. -/
theorem clean_whitespace_eq (s : CStr) :
    clean_whitespace s = rstrip (sq true (s.dropWhile is_blank)) := by
  have h1 := skip_leading_spec s [] s.length (Nat.le_refl _)
  simp only [List.nil_append, List.length_nil, Nat.zero_add] at h1
  have hsplit : s = s.takeWhile is_blank ++ s.dropWhile is_blank :=
    (List.takeWhile_append_dropWhile is_blank s).symm
  have hlen : (s.dropWhile is_blank).length ≤ s.length :=
    (List.dropWhile_suffix is_blank).length_le
  have h2 := squeeze_loop_spec (s.dropWhile is_blank) (s.takeWhile is_blank) s.length 0
    (decide ((s.takeWhile is_blank) = [] ∨ (s.takeWhile is_blank).getLast? = some ' '))
    hlen (Nat.zero_le _) (by simp)
  rw [← hsplit] at h2
  obtain ⟨h3, h4⟩ := h2
  simp only [List.take_zero, List.nil_append] at h3
  unfold clean_whitespace
  simp only [h1]
  rw [strip_trailing_spec _ _ h4, h3, sq_flag_irrelevant _ _ (head_dropWhile_blank s)]

theorem sq_eq_emit (R : CStr) : ∀ p : Bool, sq p R = emit p (R.splitOnP is_blank) := by
  induction R with
  | nil => intro p; simp [sq, emit]
  | cons c R ih =>
    intro p
    obtain ⟨h2, t, hs⟩ := List.exists_cons_of_ne_nil (List.splitOnP_ne_nil is_blank R)
    rw [List.splitOnP_cons, hs]
    by_cases hb : is_blank c = true
    · simp only [sq, hb, if_true, emit, true_and, List.nil_append]
      rw [ih true, hs]
      cases p <;> simp
    · simp only [sq, hb, Bool.false_eq_true, if_false, List.modifyHead_cons]
      rw [ih false, hs]
      cases t <;> simp [emit]

theorem rstrip_append (a b : CStr) :
    rstrip (a ++ b) = if rstrip b = [] then rstrip a else a ++ rstrip b := by
  induction a with
  | nil => by_cases h : rstrip b = [] <;> simp [rstrip, h]
  | cons c a ih =>
    by_cases h : rstrip b = []
    · simp only [h, if_true] at ih ⊢
      simp [rstrip, ih]
    · simp only [h, if_false] at ih ⊢
      simp [rstrip, ih, h]

theorem rstrip_eq_self (w : CStr) (h : ' ' ∉ w) : rstrip w = w := by
  induction w with
  | nil => rfl
  | cons c w ih =>
    have hc : c ≠ ' ' := fun e => h (by simp [e])
    have hw : ' ' ∉ w := fun e => h (by simp [e])
    simp [rstrip, hc, ih hw]

theorem intercalate_cons_cons (sep a b : CStr) (l : List CStr) :
    List.intercalate sep (a :: b :: l) = a ++ sep ++ List.intercalate sep (b :: l) := by
  simp [List.intercalate]

theorem intercalate_eq_nil (l : List CStr) (hl : ∀ w ∈ l, w ≠ []) :
    List.intercalate [' '] l = [] → l = [] := by
  cases l with
  | nil => intro _; rfl
  | cons a l =>
    intro h
    have ha := hl a (by simp)
    cases l with
    | nil => exact absurd (by simpa [List.intercalate] using h) ha
    | cons b l => rw [intercalate_cons_cons] at h; simp at h

theorem rstrip_emit (L : List CStr) (hL : ∀ w ∈ L, ' ' ∉ w) :
    rstrip (emit true L) = List.intercalate [' '] (L.filter (fun w => !w.isEmpty)) := by
  induction L with
  | nil => simp [emit, rstrip, List.intercalate]
  | cons h L ih =>
    have hh : ' ' ∉ h := hL h (by simp)
    have ihL := ih (fun w hw => hL w (by simp [hw]))
    cases L with
    | nil =>
      simp only [emit, rstrip_eq_self h hh]
      cases h <;> simp [List.intercalate]
    | cons h2 t =>
      by_cases he : h = []
      · subst he
        simpa [emit] using ihL
      · have hne : (!h.isEmpty) = true := by cases h <;> simp at he ⊢
        simp only [emit, he, false_and, if_false, List.append_assoc, List.singleton_append]
        have hf : (h :: h2 :: t).filter (fun w => !w.isEmpty)
            = h :: (h2 :: t).filter (fun w => !w.isEmpty) := List.filter_cons_of_pos hne
        rw [hf, rstrip_append]
        have hfilt : ∀ w ∈ (h2 :: t).filter (fun w => !w.isEmpty), w ≠ [] := by
          intro w hw
          have := (List.mem_filter.1 hw).2
          intro e; subst e; simp at this
        by_cases hY : rstrip (emit true (h2 :: t)) = []
        · have hnil := intercalate_eq_nil _ hfilt (ihL ▸ hY)
          have h1 : rstrip (' ' :: emit true (h2 :: t)) = [] := by simp [rstrip, hY]
          rw [if_pos h1, hnil, rstrip_eq_self h hh]
          simp [List.intercalate]
        · have h1 : rstrip (' ' :: emit true (h2 :: t)) = ' ' :: rstrip (emit true (h2 :: t)) := by
            simp [rstrip, hY]
          have h1ne : rstrip (' ' :: emit true (h2 :: t)) ≠ [] := by rw [h1]; simp
          rw [if_neg h1ne, h1, ihL]
          obtain ⟨w, ws, hws⟩ := List.exists_cons_of_ne_nil
            (fun e : (h2 :: t).filter (fun w => !w.isEmpty) = [] => hY (by
              rw [ihL, e]; simp [List.intercalate]))
          rw [hws, intercalate_cons_cons]
          simp

theorem splitOnP_pieces_not_blank (s : CStr) :
    ∀ w ∈ s.splitOnP is_blank, ∀ c ∈ w, is_blank c = false := by
  induction s with
  | nil => simp
  | cons x s ih =>
    obtain ⟨h, t, hs⟩ := List.exists_cons_of_ne_nil (List.splitOnP_ne_nil is_blank s)
    rw [hs] at ih
    rw [List.splitOnP_cons, hs]
    by_cases hb : is_blank x = true
    · simp only [hb, if_true]
      intro w hw c hc
      rcases List.mem_cons.1 hw with e | e
      · subst e; simp at hc
      · exact ih w e c hc
    · simp only [hb, Bool.false_eq_true, if_false, List.modifyHead_cons]
      intro w hw c hc
      rcases List.mem_cons.1 hw with e | e
      · subst e
        rcases List.mem_cons.1 hc with e2 | e2
        · subst e2; simpa using hb
        · exact ih h (by simp) c e2
      · exact ih w (by simp [e]) c hc

theorem blank_runs_dropWhile (s : CStr) :
    blank_runs (s.dropWhile is_blank) = blank_runs s := by
  induction s with
  | nil => rfl
  | cons x s ih =>
    by_cases hb : is_blank x = true
    · rw [List.dropWhile_cons_of_pos hb, ih]
      simp [blank_runs, hb]
    · rw [List.dropWhile_cons_of_neg hb]

theorem not_blank_space : is_blank ' ' = true := by decide

theorem clean_whitespace_eq_ref (s : CStr) : clean_whitespace s = normalise_ref s := by
  rw [clean_whitespace_eq, sq_eq_emit, rstrip_emit, normalise_ref, ← blank_runs_dropWhile]
  · rfl
  · intro w hw hmem
    have := splitOnP_pieces_not_blank _ w hw ' ' hmem
    rw [not_blank_space] at this
    exact Bool.noConfusion this

theorem double_space_free_cons (x : Char) (l : CStr) :
    double_space_free (x :: l) ↔ (x = ' ' → l.head? ≠ some ' ') ∧ double_space_free l := by
  cases l with
  | nil => simp [double_space_free]
  | cons y l => simp [double_space_free]

theorem double_space_free_index (l : CStr) (h : double_space_free l) :
    ∀ i : Nat, ¬ (l[i]? = some ' ' ∧ l[i + 1]? = some ' ') := by
  induction l with
  | nil => intro i; simp
  | cons x l ih =>
    rw [double_space_free_cons] at h
    intro i
    cases i with
    | zero =>
      rintro ⟨h0, h1⟩
      have hx : x = ' ' := by simpa using h0
      apply h.1 hx
      cases l with
      | nil => simp at h1
      | cons y l => simpa using h1
    | succ i => simpa using ih h.2 i

theorem sq_mem (R : CStr) : ∀ (p : Bool) (c : Char), c ∈ sq p R →
    c = ' ' ∨ (c ∈ R ∧ is_blank c = false) := by
  induction R with
  | nil => intro p c h; simp [sq] at h
  | cons x R ih =>
    intro p c h
    by_cases hb : is_blank x = true
    · simp only [sq, hb, if_true] at h
      cases p with
      | true =>
        rcases ih true c (by simpa using h) with e | e
        · exact Or.inl e
        · exact Or.inr ⟨by simp [e.1], e.2⟩
      | false =>
        simp only [Bool.false_eq_true, if_false, List.mem_cons] at h
        rcases h with e | e
        · exact Or.inl e
        · rcases ih true c e with e | e
          · exact Or.inl e
          · exact Or.inr ⟨by simp [e.1], e.2⟩
    · simp only [sq, hb, Bool.false_eq_true, if_false, List.mem_cons] at h
      rcases h with e | e
      · subst e; exact Or.inr ⟨by simp, by simpa using hb⟩
      · rcases ih false c e with e | e
        · exact Or.inl e
        · exact Or.inr ⟨by simp [e.1], e.2⟩

theorem sq_true_head (R : CStr) : (sq true R).head? ≠ some ' ' := by
  induction R with
  | nil => simp [sq]
  | cons x R ih =>
    by_cases hb : is_blank x = true
    · simpa [sq, hb] using ih
    · simp only [sq, hb, Bool.false_eq_true, if_false, List.head?_cons, ne_eq,
        Option.some.injEq]
      intro e; subst e; exact hb not_blank_space

theorem sq_double_space_free (R : CStr) : ∀ p : Bool, double_space_free (sq p R) := by
  induction R with
  | nil => intro p; simp [sq, double_space_free]
  | cons x R ih =>
    intro p
    by_cases hb : is_blank x = true
    · cases p with
      | true => simpa [sq, hb] using ih true
      | false =>
        simp only [sq, hb, if_true, Bool.false_eq_true, if_false]
        rw [double_space_free_cons]
        exact ⟨fun _ => sq_true_head R, ih true⟩
    · simp only [sq, hb, Bool.false_eq_true, if_false]
      rw [double_space_free_cons]
      refine ⟨fun e => ?_, ih false⟩
      subst e; exact absurd not_blank_space hb

theorem rstrip_mem (l : CStr) (c : Char) (h : c ∈ rstrip l) : c ∈ l := by
  induction l with
  | nil => simp [rstrip] at h
  | cons x l ih =>
    simp only [rstrip] at h
    split at h
    · simp at h
    · rcases List.mem_cons.1 h with e | e
      · simp [e]
      · simp [ih e]

theorem rstrip_head (l : CStr) (c : Char) (h : (rstrip l).head? = some c) :
    l.head? = some c := by
  cases l with
  | nil => simp [rstrip] at h
  | cons x l =>
    simp only [rstrip] at h
    split at h
    · simp at h
    · simpa using h

theorem rstrip_getLast (l : CStr) : (rstrip l).getLast? ≠ some ' ' := by
  induction l with
  | nil => simp [rstrip]
  | cons x l ih =>
    simp only [rstrip]
    split
    · simp
    · rename_i hx
      by_cases hr : rstrip l = []
      · rw [hr]
        simp only [List.getLast?_singleton, ne_eq, Option.some.injEq]
        intro e; exact hx ⟨e, hr⟩
      · obtain ⟨y, ys, hy⟩ := List.exists_cons_of_ne_nil hr
        rw [hy, List.getLast?_cons_cons, ← hy]
        exact ih

theorem rstrip_double_space_free (l : CStr) (h : double_space_free l) :
    double_space_free (rstrip l) := by
  induction l with
  | nil => simp [rstrip, double_space_free]
  | cons x l ih =>
    rw [double_space_free_cons] at h
    simp only [rstrip]
    split
    · simp [double_space_free]
    · rw [double_space_free_cons]
      exact ⟨fun e hh => h.1 e (rstrip_head l _ hh), ih h.2⟩

theorem rstrip_filter (l : CStr) :
    (rstrip l).filter (fun c => !is_blank c) = l.filter (fun c => !is_blank c) := by
  induction l with
  | nil => rfl
  | cons x l ih =>
    simp only [rstrip]
    split
    · rename_i h
      rw [h.2] at ih
      rw [List.filter_cons, ← ih, h.1]
      simp [not_blank_space]
    · simp [List.filter_cons, ih]

theorem sq_filter (R : CStr) : ∀ p : Bool,
    (sq p R).filter (fun c => !is_blank c) = R.filter (fun c => !is_blank c) := by
  induction R with
  | nil => intro p; rfl
  | cons x R ih =>
    intro p
    by_cases hb : is_blank x = true
    · cases p <;> simp [sq, hb, List.filter_cons, ih, not_blank_space]
    · simp [sq, hb, List.filter_cons, ih]

theorem dropWhile_blank_filter (s : CStr) :
    (s.dropWhile is_blank).filter (fun c => !is_blank c) = s.filter (fun c => !is_blank c) := by
  induction s with
  | nil => rfl
  | cons x s ih =>
    by_cases hb : is_blank x = true
    · rw [List.dropWhile_cons_of_pos hb, ih]
      simp [List.filter_cons, hb]
    · rw [List.dropWhile_cons_of_neg hb]

/-! ## Lemmas on strsep and count_char -/

theorem strsep_scan_no_delim (d : Char) (s : CStr) (h : d ∉ s) :
    strsep_scan d s = (s, none) := by
  induction s with
  | nil => rfl
  | cons c s ih =>
    have hc : c ≠ d := fun e => h (by simp [e])
    have hs : d ∉ s := fun e => h (by simp [e])
    simp [strsep_scan, hc, ih hs]

theorem strsep_scan_append (d : Char) (a b : CStr) (h : d ∉ a) :
    strsep_scan d (a ++ d :: b) = (a, some b) := by
  induction a with
  | nil => simp [strsep_scan]
  | cons c a ih =>
    have hc : c ≠ d := fun e => h (by simp [e])
    have ha : d ∉ a := fun e => h (by simp [e])
    simp [strsep_scan, hc, ih ha]

theorem splitOnP_pieces (p : Char → Bool) (s : CStr) :
    ∀ w ∈ s.splitOnP p, ∀ c ∈ w, c ∈ s ∧ p c = false := by
  induction s with
  | nil => simp
  | cons x s ih =>
    obtain ⟨h, t, hs⟩ := List.exists_cons_of_ne_nil (List.splitOnP_ne_nil p s)
    rw [hs] at ih
    rw [List.splitOnP_cons, hs]
    by_cases hb : p x = true
    · simp only [hb, if_true]
      intro w hw c hc
      rcases List.mem_cons.1 hw with e | e
      · subst e; simp at hc
      · exact ⟨List.mem_cons_of_mem _ (ih w (by simp [e]) c hc).1, (ih w (by simp [e]) c hc).2⟩
    · simp only [hb, Bool.false_eq_true, if_false, List.modifyHead_cons]
      intro w hw c hc
      rcases List.mem_cons.1 hw with e | e
      · subst e
        rcases List.mem_cons.1 hc with e2 | e2
        · subst e2; exact ⟨by simp, by simpa using hb⟩
        · exact ⟨List.mem_cons_of_mem _ (ih h (by simp) c e2).1, (ih h (by simp) c e2).2⟩
      · exact ⟨List.mem_cons_of_mem _ (ih w (by simp [e]) c hc).1, (ih w (by simp [e]) c hc).2⟩

/-- The `strsep` loop of `main`, run `count_char input '&' + 1` times, returns
the pieces of the line between the `&` characters. -/
theorem strsep_iter_eq_splitOn (d : Char) (s : CStr) :
    strsep_iter d (count_char s d + 1) (some s) = (s.splitOn d).map some ∧
    (s.splitOn d).length = count_char s d + 1 := by
  induction s with
  | nil => simp [strsep_iter, strsep, strsep_scan, count_char, List.splitOn]
  | cons c s ih =>
    obtain ⟨h, t, hs⟩ := List.exists_cons_of_ne_nil (List.splitOnP_ne_nil (· == d) s)
    simp only [List.splitOn] at ih ⊢
    rw [List.splitOnP_cons]
    rw [hs] at ih
    by_cases hc : c = d
    · subst hc
      simp only [count_char, if_true, beq_self_eq_true, hs]
      constructor
      · rw [Nat.add_comm 1, strsep_iter]
        simp only [strsep, strsep_scan, if_true, List.map_cons]
        rw [ih.1]; rfl
      · simp only [List.length_cons] at ih ⊢
        omega
    · have hc2 : (c == d) = false := by simpa using hc
      simp only [count_char, if_neg hc, Nat.zero_add, hc2, Bool.false_eq_true, if_false, hs,
        List.modifyHead_cons]
      constructor
      · have h1 := ih.1
        simp only [strsep_iter, strsep, List.map_cons, List.cons.injEq, Option.some.injEq]
          at h1 ⊢
        simp only [strsep_scan, if_neg hc]
        exact ⟨by rw [h1.1], h1.2⟩
      · simpa using ih.2

/-! ## Frame lemmas: what a call of execute_command leaves alone -/

@[simp] theorem log_path (st : Shell) (e : Event) : (st.log e).path = st.path := rfl

@[simp] theorem log_cwd (st : Shell) (e : Event) : (st.log e).cwd = st.cwd := rfl

@[simp] theorem log_calls (st : Shell) (e : Event) : (st.log e).calls = st.calls := rfl

@[simp] theorem log_trace (st : Shell) (e : Event) : (st.log e).trace = st.trace ++ [e] := rfl

@[simp] theorem close_output_path (o : Option Stream) (st : Shell) :
    (close_output o st).path = st.path := by
  cases o <;> rfl

@[simp] theorem close_output_cwd (o : Option Stream) (st : Shell) :
    (close_output o st).cwd = st.cwd := by
  cases o <;> rfl

@[simp] theorem close_output_calls (o : Option Stream) (st : Shell) :
    (close_output o st).calls = st.calls := by
  cases o <;> rfl

theorem parse_command_frame (st : Shell) (o : Option Stream) (command : CStr) :
    (parse_command st o command).state.path = st.path ∧
    (parse_command st o command).state.cwd = st.cwd ∧
    (parse_command st o command).state.calls = st.calls := by
  unfold parse_command
  simp only
  split
  · cases o <;> simp [Parsed.state]
  · simp [Parsed.state]

theorem parse_segment_frame (os : OS) (st : Shell) (seg : CStr) :
    (parse_segment os st seg).state.path = st.path ∧
    (parse_segment os st seg).state.cwd = st.cwd ∧
    (parse_segment os st seg).state.calls = st.calls := by
  unfold parse_segment
  simp only
  split
  · exact parse_command_frame _ _ _
  · split
    · simp [Parsed.state]
    · split
      · simpa using parse_command_frame (st.log _) _ _
      · simp [Parsed.state]

theorem launch_calls (os : OS) (c : CStr) (args : List (Option CStr)) (o : Option Stream)
    (slots : List (Option CStr)) : ∀ st : Shell,
    (launch os c args o slots st).state.calls = st.calls := by
  induction slots with
  | nil => intro st; rfl
  | cons x slots ih =>
    intro st
    cases x with
    | none => simp [launch, Outcome.state]
    | some d =>
      simp only [launch]
      split
      · simp [Outcome.state]
      · rw [ih]; rfl

theorem run_command_calls (os : OS) (st : Shell) (o : Option Stream) (argc : Nat)
    (args : List (Option CStr)) :
    (run_command os st o argc args).state.calls = st.calls := by
  unfold run_command
  split
  · simp only [builtin_cleanup]
    repeat' split
    all_goals first
      | rfl
      | (simp [Outcome.state]; done)
      | exact launch_calls _ _ _ _ _ _
  · rfl

theorem execute_command_calls (os : OS) (st : Shell) (command : Option CStr) :
    (execute_command os st command).state.calls = st.calls := by
  unfold execute_command
  split
  · rfl
  · rename_i seg
    have h := (parse_segment_frame os st seg).2.2
    split
    · rename_i st1 heq
      rw [heq] at h
      simpa [Parsed.state, Outcome.state] using h
    · rename_i st1 o argc args heq
      rw [heq] at h
      rw [run_command_calls]
      simpa [Parsed.state] using h

/-! ## Lemmas on the launch loop -/

theorem probes_failed_take_succ (c : CStr) (ds : List CStr) (k : Nat) (hk : k < ds.length) :
    probes_failed c (ds.take (k + 1))
      = probes_failed c (ds.take k) ++ [Event.access (full_path_of (ds.getD k []) c) false] := by
  unfold probes_failed
  rw [List.take_succ, List.map_append]
  simp [List.getElem?_eq_getElem hk, List.getD_eq_getElem?_getD]

/-- The launch loop walks over directories whose candidate is not executable,
logging one failed probe for each. -/
theorem launch_skip (os : OS) (c : CStr) (args : List (Option CStr)) (o : Option Stream) :
    ∀ (pre : List CStr) (rest : List (Option CStr)) (st : Shell),
    (∀ i, i < pre.length →
      os.access_x (st.trace ++ probes_failed c (pre.take i)) (full_path_of (pre.getD i []) c)
        = false) →
    launch os c args o (pre.map some ++ rest) st
      = launch os c args o rest { st with trace := st.trace ++ probes_failed c pre } := by
  intro pre
  induction pre with
  | nil => intro rest st _; simp [probes_failed]
  | cons d pre ih =>
    intro rest st h
    have h0 := h 0 (by simp)
    simp only [List.take_zero, probes_failed, List.map_nil, List.append_nil,
      List.getD_cons_zero] at h0
    simp only [List.map_cons, List.cons_append, launch, h0, Bool.false_eq_true, if_false,
      List.append_eq]
    rw [ih rest (st.log (.access (full_path_of d c) false))]
    · simp [probes_failed, Shell.log]
    · intro i hi
      have := h (i + 1) (by simpa using hi)
      simpa [probes_failed, Shell.log] using this

theorem run_command_external (os : OS) (st : Shell) (o : Option Stream) (argc : Nat)
    (args : List (Option CStr)) (c : CStr) (slots : List (Option CStr))
    (hname : args.head? = some (some c))
    (hext : c ≠ kw_exit ∧ c ≠ kw_cd ∧ c ≠ kw_path)
    (hpath : st.path = some slots) :
    run_command os st o argc args = launch os c args o slots st := by
  unfold run_command
  rw [hname]
  simp only [if_neg hext.1, if_neg hext.2.1, if_neg hext.2.2, hpath]

theorem execute_command_of_parse (os : OS) (st : Shell) (seg : CStr) (st1 : Shell)
    (o : Option Stream) (argc : Nat) (args : List (Option CStr))
    (hparse : parse_segment os st seg = .command st1 o argc args) :
    execute_command os st (some seg) = run_command os st1 o argc args := by
  simp only [execute_command, hparse]

theorem parse_segment_path (os : OS) (st : Shell) (seg : CStr) (st1 : Shell)
    (o : Option Stream) (argc : Nat) (args : List (Option CStr))
    (hparse : parse_segment os st seg = .command st1 o argc args) :
    st1.path = st.path ∧ st1.cwd = st.cwd ∧ st1.calls = st.calls := by
  have h := parse_segment_frame os st seg
  rw [hparse] at h
  exact h

/-- The built-in `path` when `realloc` leaves the block of `main` in place: the
block then holds `args[1]`, ..., `args[argc]`. -/
theorem path_builtin_in_place (os : OS) (st : Shell) (seg : CStr) (st1 : Shell)
    (o : Option Stream) (argc : Nat) (args : List (Option CStr))
    (slots0 : List (Option CStr))
    (hparse : parse_segment os st seg = .command st1 o argc args)
    (hname : args.head? = some (some kw_path))
    (hvalid : st.path = some slots0)
    (hstay : os.realloc_moves st1.trace argc = false) :
    execute_command os st (some seg)
      = .ret 0 (close_output o
          { st1.log (.realloc argc false) with
            path := some ((List.range argc).map (fun i => (args.get? (i + 1)).join)) }) := by
  have hp1 : st1.path = some slots0 := by
    rw [(parse_segment_path os st seg st1 o argc args hparse).1, hvalid]
  rw [execute_command_of_parse os st seg st1 o argc args hparse]
  unfold run_command
  rw [hname]
  have h1 : kw_path ≠ kw_exit := by decide
  have h2 : kw_path ≠ kw_cd := by decide
  simp only [if_neg h1, if_neg h2, if_true, hp1, hstay, builtin_cleanup]
  rfl

/-! ## Lemmas on the parse of a segment -/

theorem clean_whitespace_mem_of_not_blank (s : CStr) (c : Char) (hc : is_blank c = false)
    (h : c ∈ s) : c ∈ clean_whitespace s := by
  have h1 : c ∈ s.filter (fun c => !is_blank c) := List.mem_filter.2 ⟨h, by simp [hc]⟩
  have h2 : (clean_whitespace s).filter (fun c => !is_blank c)
      = s.filter (fun c => !is_blank c) := by
    rw [clean_whitespace_eq, rstrip_filter, sq_filter, dropWhile_blank_filter]
  rw [← h2] at h1
  exact (List.mem_filter.1 h1).1

theorem clean_whitespace_blank (s : CStr) (h : ∀ c ∈ s, is_blank c = true) :
    clean_whitespace s = [] := by
  have hd : s.dropWhile is_blank = [] := by
    rw [List.dropWhile_eq_nil_iff]; exact h
  rw [clean_whitespace_eq, hd]
  rfl

theorem strchr_found_iff (s : CStr) (c : Char) : strchr_found s c = true ↔ c ∈ s := by
  simp only [strchr_found, List.any_eq_true, decide_eq_true_eq]
  constructor
  · rintro ⟨x, hx, rfl⟩; exact hx
  · intro h; exact ⟨c, h, rfl⟩

theorem parse_segment_bad_target (os : OS) (st : Shell) (cmd raw : CStr)
    (hcmd : '>' ∉ cmd) (hbad : '>' ∈ raw ∨ ' ' ∈ clean_whitespace raw) :
    parse_segment os st (cmd ++ '>' :: raw) = .returned (st.log .write_err) := by
  have hbad2 : (strchr_found (clean_whitespace raw) '>'
      || strchr_found (clean_whitespace raw) ' ') = true := by
    rw [Bool.or_eq_true, strchr_found_iff, strchr_found_iff]
    rcases hbad with h | h
    · exact Or.inl (clean_whitespace_mem_of_not_blank raw '>' (by decide) h)
    · exact Or.inr h
  unfold parse_segment
  simp only [strsep_scan_append '>' cmd raw hcmd]
  rw [if_pos hbad2]

theorem parse_segment_empty_target (os : OS) (st : Shell) (cmd raw : CStr)
    (hcmd : '>' ∉ cmd) (hraw : clean_whitespace raw = []) :
    parse_segment os st (cmd ++ '>' :: raw)
      = .returned ((st.log (.fopen [] false)).log .write_err) := by
  simp [parse_segment, strsep_scan_append '>' cmd raw hcmd, hraw, strchr_found, sys_fopen]

theorem parse_segment_blank (os : OS) (st : Shell) (seg : CStr)
    (h : ∀ c ∈ seg, is_blank c = true) : parse_segment os st seg = .returned st := by
  have hgt : '>' ∉ seg := fun hm => by
    have := h _ hm
    exact absurd this (by decide)
  simp [parse_segment, strsep_scan_no_delim '>' seg hgt, parse_command,
    clean_whitespace_blank seg h]

/-- The only events the parse of a segment adds before a command is run: none,
or the successful opening of the redirection target. -/
theorem parse_segment_trace (os : OS) (st : Shell) (seg : CStr) (st1 : Shell)
    (o : Option Stream) (argc : Nat) (args : List (Option CStr))
    (hparse : parse_segment os st seg = .command st1 o argc args) :
    (o = none ∧ st1.trace = st.trace) ∨
    (∃ f, o = some ⟨st.trace.length, f⟩ ∧ st1.trace = st.trace ++ [.fopen f true]) := by
  unfold parse_segment at hparse
  simp only at hparse
  split at hparse
  · unfold parse_command at hparse
    simp only at hparse
    split at hparse
    · exact Parsed.noConfusion hparse
    · simp only [Parsed.command.injEq] at hparse
      exact Or.inl ⟨hparse.2.1.symm, by rw [← hparse.1]⟩
  · split at hparse
    · exact Parsed.noConfusion hparse
    · split at hparse
      · unfold parse_command at hparse
        simp only at hparse
        split at hparse
        · exact Parsed.noConfusion hparse
        · simp only [Parsed.command.injEq] at hparse
          exact Or.inr ⟨_, hparse.2.1.symm, by rw [← hparse.1]; rfl⟩
      · exact Parsed.noConfusion hparse

/-! ## Lemmas on the dispatch loop -/

theorem dispatch_step_ret (os : OS) (n : Nat) (st0 : Shell) (input : Option CStr)
    (pids : List Int) (pid : Int) (st2 : Shell)
    (h : execute_command os { st0 with calls := st0.calls ++ [(strsep input '&').1] }
      (strsep input '&').1 = .ret pid st2) :
    dispatch_loop os (n + 1) st0 input pids
      = dispatch_loop os n st2 (strsep input '&').2 (pids ++ [pid]) := by
  simp only [dispatch_loop, h]

theorem dispatch_step_exited (os : OS) (n : Nat) (st0 : Shell) (input : Option CStr)
    (pids : List Int) (status : Nat) (st2 : Shell)
    (h : execute_command os { st0 with calls := st0.calls ++ [(strsep input '&').1] }
      (strsep input '&').1 = .exited status st2) :
    finish_line (dispatch_loop os (n + 1) st0 input pids) = .exited status st2 := by
  simp only [dispatch_loop, h, finish_line]

theorem wait_all_zeros (n : Nat) (st : Shell) : wait_all (List.replicate n 0) st = st := by
  induction n with
  | zero => rfl
  | succ n ih => simp [List.replicate, wait_all, ih]

theorem dispatch_blank (os : OS) : ∀ (n : Nat) (st : Shell) (input : Option CStr)
    (pids : List Int),
    (∀ t ∈ strsep_iter '&' n input, ∃ s, t = some s ∧ ∀ c ∈ s, is_blank c = true) →
    dispatch_loop os n st input pids
      = .complete { st with calls := st.calls ++ strsep_iter '&' n input }
          (pids ++ List.replicate n 0) := by
  intro n
  induction n with
  | zero => intro st input pids _; simp [dispatch_loop, strsep_iter]
  | succ n ih =>
    intro st input pids h
    obtain ⟨s, hs, hblank⟩ := h (strsep input '&').1 (by simp [strsep_iter])
    have hexec : execute_command os { st with calls := st.calls ++ [(strsep input '&').1] }
        (strsep input '&').1
        = .ret 0 { st with calls := st.calls ++ [(strsep input '&').1] } := by
      rw [hs]
      simp only [execute_command, parse_segment_blank os _ s hblank]
    rw [dispatch_step_ret os n st input pids 0 _ hexec, ih]
    · simp [strsep_iter, List.replicate_succ]
    · intro t ht
      exact h t (by simp [strsep_iter, ht])



theorem wait_all_frame (pids : List Int) : ∀ st : Shell,
    (wait_all pids st).calls = st.calls ∧ (wait_all pids st).path = st.path ∧
    (wait_all pids st).cwd = st.cwd := by
  induction pids with
  | nil => intro st; simp [wait_all]
  | cons pid pids ih =>
    intro st
    simp only [wait_all]
    split
    · simpa using ih (st.log (.waitpid pid))
    · exact ih st

theorem finish_line_calls (d : Dispatch) : (finish_line d).state.calls = d.state.calls := by
  cases d with
  | complete st pids => exact (wait_all_frame pids st).1
  | exited status st => rfl
  | undefined st => rfl

theorem dispatch_calls_complete (os : OS) : ∀ (n : Nat) (st : Shell) (input : Option CStr)
    (pids : List Int) (st2 : Shell) (pids2 : List Int),
    dispatch_loop os n st input pids = .complete st2 pids2 →
    st2.calls = st.calls ++ strsep_iter '&' n input := by
  intro n
  induction n with
  | zero =>
    intro st input pids st2 pids2 h
    simp only [dispatch_loop, Dispatch.complete.injEq] at h
    simp [strsep_iter, ← h.1]
  | succ n ih =>
    intro st input pids st2 pids2 h
    have hc := execute_command_calls os { st with calls := st.calls ++ [(strsep input '&').1] }
      (strsep input '&').1
    simp only [dispatch_loop] at h
    split at h
    · rename_i pid st1 heq
      rw [heq] at hc
      have := ih _ _ _ _ _ h
      simp only [Outcome.state] at hc
      rw [this, hc]
      simp [strsep_iter]
    · exact Dispatch.noConfusion h
    · exact Dispatch.noConfusion h

theorem dispatch_calls_front (os : OS) : ∀ (n : Nat) (st : Shell) (input : Option CStr)
    (pids : List Int),
    ∃ m, m ≤ n ∧ (dispatch_loop os n st input pids).state.calls
      = st.calls ++ (strsep_iter '&' n input).take m := by
  intro n
  induction n with
  | zero =>
    intro st input pids
    exact ⟨0, Nat.le_refl _, by simp [dispatch_loop, Dispatch.state]⟩
  | succ n ih =>
    intro st input pids
    have hc := execute_command_calls os { st with calls := st.calls ++ [(strsep input '&').1] }
      (strsep input '&').1
    simp only [dispatch_loop]
    split
    · rename_i pid st1 heq
      rw [heq] at hc
      obtain ⟨m, hm, h⟩ := ih st1 (strsep input '&').2 (pids ++ [pid])
      simp only [Outcome.state] at hc
      refine ⟨m + 1, Nat.succ_le_succ hm, ?_⟩
      rw [h, hc]
      simp [strsep_iter]
    · rename_i status st1 heq
      rw [heq] at hc
      simp only [Outcome.state] at hc
      exact ⟨1, by omega, by simp [Dispatch.state, hc, strsep_iter]⟩
    · rename_i st1 heq
      rw [heq] at hc
      simp only [Outcome.state] at hc
      exact ⟨1, by omega, by simp [Dispatch.state, hc, strsep_iter]⟩

theorem splitOn_pieces_no_delim (d : Char) (s : CStr) : ∀ w ∈ s.splitOn d, d ∉ w := by
  intro w hw hd
  have := (splitOnP_pieces (· == d) s w hw d hd).2
  simp at this

/-! ## Properties of clean_whitespace -/

/-- C5: the result of `clean_whitespace` has no leading space, no trailing space,
contains no tab and no newline, and has no two adjacent spaces. -/
theorem clean_whitespace_canonical (s : CStr) :
    (clean_whitespace s).head? ≠ some ' ' ∧
    (clean_whitespace s).getLast? ≠ some ' ' ∧
    '\t' ∉ clean_whitespace s ∧
    '\n' ∉ clean_whitespace s ∧
    ∀ i : Nat, ¬ ((clean_whitespace s)[i]? = some ' ' ∧
      (clean_whitespace s)[i + 1]? = some ' ') := by
  rw [clean_whitespace_eq]
  refine ⟨?_, rstrip_getLast _, ?_, ?_, ?_⟩
  · intro h
    exact sq_true_head _ (rstrip_head _ _ h)
  · intro h
    rcases sq_mem _ _ _ (rstrip_mem _ _ h) with e | e
    · exact absurd e (by decide)
    · exact absurd e.2 (by decide)
  · intro h
    rcases sq_mem _ _ _ (rstrip_mem _ _ h) with e | e
    · exact absurd e (by decide)
    · exact absurd e.2 (by decide)
  · exact double_space_free_index _ (rstrip_double_space_free _ (sq_double_space_free _ _))

/-- C6: `clean_whitespace` computes the reference normaliser (the maximal runs of
non-blank characters joined by one space), and the non-blank characters of the
result are those of the input, in the same order. -/
theorem clean_whitespace_refines_reference (s : CStr) :
    clean_whitespace s = normalise_ref s ∧
    (clean_whitespace s).filter (fun c => !is_blank c) = s.filter (fun c => !is_blank c) := by
  refine ⟨clean_whitespace_eq_ref s, ?_⟩
  rw [clean_whitespace_eq, rstrip_filter, sq_filter, dropWhile_blank_filter]

/-! ## Properties of the dispatch of a line -/

/-- C4, as the code has it: the segments of a line are its pieces between the
`&` characters, `k + 1` of them for `k` occurrences, which joined with `&` give
the line back; the segments passed to `execute_command` are always the first ones
of these, in order, and they are all of them whenever the line is processed to
its end (no segment terminates the process). -/
theorem dispatch_segments_in_order (os : OS) (st : Shell) (line : CStr) :
    ∃ segs : List CStr,
      segs.length = count_char line '&' + 1 ∧
      List.intercalate ['&'] segs = line ∧
      (∀ s ∈ segs, '&' ∉ s) ∧
      (∃ m, m ≤ segs.length ∧
        (process_line os st line).state.calls = st.calls ++ (segs.take m).map some) ∧
      (∀ st2, process_line os st line = .next st2 →
        st2.calls = st.calls ++ segs.map some) := by
  obtain ⟨htok, hlen⟩ := strsep_iter_eq_splitOn '&' line
  refine ⟨line.splitOn '&', hlen, List.intercalate_splitOn line '&',
    splitOn_pieces_no_delim '&' line, ?_, ?_⟩
  · obtain ⟨m, hm, h⟩ := dispatch_calls_front os (count_char line '&' + 1) st (some line) []
    refine ⟨m, by omega, ?_⟩
    unfold process_line
    rw [finish_line_calls, h, htok, List.map_take]
  · intro st2 h
    unfold process_line at h
    cases hd : dispatch_loop os (count_char line '&' + 1) st (some line) [] with
    | complete st3 pids =>
      rw [hd] at h
      simp only [finish_line, LineResult.next.injEq] at h
      rw [← h, (wait_all_frame pids st3).1, dispatch_calls_complete os _ _ _ _ _ _ hd, htok]
    | exited status st3 => rw [hd] at h; exact LineResult.noConfusion h
    | undefined st3 => rw [hd] at h; exact LineResult.noConfusion h

/-- C4 at a concrete line: `exit&ls` has one `&`, and one segment only is passed
to `execute_command`, because `exit` terminates the process. -/
theorem exit_cuts_dispatch_short :
    count_char line_exit_first '&' = 1 ∧
    process_line os_plain (initial_shell dir_home) line_exit_first
      = .exited 0 { path := (initial_shell dir_home).path, cwd := dir_home,
                    trace := [.exit 0], calls := [some kw_exit] } ∧
    (process_line os_plain (initial_shell dir_home) line_exit_first).state.calls.length
      ≠ count_char line_exit_first '&' + 1 := by
  decide

/-- C4 on the line `a&b`. -/
theorem dispatch_segments_in_order_witness :
    ∃ segs : List CStr,
      segs.length = count_char "a&b".toList '&' + 1 ∧
      List.intercalate ['&'] segs = "a&b".toList ∧
      (∀ s ∈ segs, '&' ∉ s) ∧
      (∃ m, m ≤ segs.length ∧
        (process_line os_plain (initial_shell dir_home) "a&b".toList).state.calls
          = (initial_shell dir_home).calls ++ (segs.take m).map some) ∧
      (∀ st2, process_line os_plain (initial_shell dir_home) "a&b".toList = .next st2 →
        st2.calls = (initial_shell dir_home).calls ++ segs.map some) :=
  dispatch_segments_in_order os_plain (initial_shell dir_home) "a&b".toList

/-! ## Properties of the built-in commands -/

/-- C1 at a concrete segment: `cd /tmp /var` reports the error and nevertheless
changes the working directory to `/tmp`. -/
theorem cd_two_arguments_changes_directory :
    execute_command os_plain (initial_shell dir_home) (some seg_cd_two)
      = .ret 0 { path := (initial_shell dir_home).path
                 cwd := "/tmp".toList
                 trace := [.chdir (some "/tmp".toList) true, .write_err]
                 calls := [] } ∧
    (initial_shell dir_home).cwd ≠ "/tmp".toList := by
  decide

/-! ## Properties of the executable lookup -/

/-- C3: with search path `ds` and a command name `c` that is not a built-in,
`execute_command` probes `ds[0]/c`, `ds[1]/c`, ... in order; at the first
candidate `ds[k]/c` that is executable it forks the child running that candidate
with `args` and returns what `fork` returned, probing nothing further; when no
candidate is executable it writes the error message, forks nothing and returns 0. -/
theorem launch_first_executable (os : OS) (st : Shell) (seg : CStr) (st1 : Shell)
    (output : Option Stream) (argc : Nat) (args : List (Option CStr)) (c : CStr)
    (ds : List CStr)
    (hparse : parse_segment os st seg = .command st1 output argc args)
    (hname : args.head? = some (some c))
    (hext : c ≠ kw_exit ∧ c ≠ kw_cd ∧ c ≠ kw_path)
    (hpath : st.path = some (ds.map some ++ [none])) :
    (∀ k, k < ds.length →
      (∀ i, i < k → os.access_x (st1.trace ++ probes_failed c (ds.take i))
        (full_path_of (ds.getD i []) c) = false) →
      os.access_x (st1.trace ++ probes_failed c (ds.take k))
        (full_path_of (ds.getD k []) c) = true →
      execute_command os st (some seg)
        = .ret (sys_fork os (st1.trace ++ probes_failed c (ds.take k) ++
              [.access (full_path_of (ds.getD k []) c) true]))
            (close_output output (st1.extend (probes_failed c (ds.take k) ++
              [.access (full_path_of (ds.getD k []) c) true,
               .fork (child_program output (full_path_of (ds.getD k []) c) args)
                 (sys_fork os (st1.trace ++ probes_failed c (ds.take k) ++
                   [.access (full_path_of (ds.getD k []) c) true]))])))) ∧
    ((∀ i, i < ds.length → os.access_x (st1.trace ++ probes_failed c (ds.take i))
        (full_path_of (ds.getD i []) c) = false) →
      execute_command os st (some seg)
        = .ret 0 (close_output output (st1.extend (probes_failed c ds ++ [.write_err])))) := by
  have hp1 : st1.path = some (ds.map some ++ [none]) := by
    rw [(parse_segment_path os st seg st1 output argc args hparse).1, hpath]
  rw [execute_command_of_parse os st seg st1 output argc args hparse,
    run_command_external os st1 output argc args c _ hname hext hp1]
  constructor
  · intro k hk hfail hok
    have hsplit : ds.map some ++ [none]
        = (ds.take k).map some ++ (some (ds.getD k []) :: ((ds.drop (k + 1)).map some ++ [none])) := by
      have hd : ds.getD k [] = ds[k] := by
        simp [List.getD_eq_getElem?_getD, List.getElem?_eq_getElem hk]
      have hds : ds.take k ++ ds.getD k [] :: ds.drop (k + 1) = ds := by
        rw [hd, ← List.drop_eq_getElem_cons hk, List.take_append_drop]
      conv_lhs => rw [← hds]
      simp
    rw [hsplit, launch_skip]
    · simp only [launch, hok, if_true, Shell.log, Shell.extend, List.append_assoc,
        List.singleton_append]
    · intro i hi
      have hik : i < k := by simpa using (lt_of_lt_of_le hi (List.length_take_le _ _))
      have h := hfail i hik
      rw [List.take_take, Nat.min_eq_left (Nat.le_of_lt hik)]
      have hget : (ds.take k).getD i [] = ds.getD i [] := by
        simp [List.getD_eq_getElem?_getD, List.getElem?_take, hik]
      rw [hget]; exact h
  · intro hfail
    rw [launch_skip os c args output ds [none] st1 hfail]
    simp [launch, Shell.log, Shell.extend]

/-- C3 on an instance: with search path `/a`, `/b`, `/c` and `/b/foo` the only
executable file, `foo` is probed as `/a/foo`, then `/b/foo`, and launched from
there; `/c/foo` is not probed. -/
theorem launch_first_executable_witness :
    execute_command os_b_foo shell_abc (some line_foo)
      = .ret 100 (shell_abc.extend
          [.access "/a/foo".toList false, .access "/b/foo".toList true,
           .fork [.execv "/b/foo".toList [some "foo".toList, none], .write_err, .exit 1] 100]) :=
  (launch_first_executable os_b_foo shell_abc line_foo shell_abc none 1
    [some "foo".toList, none] "foo".toList ["/a".toList, "/b".toList, "/c".toList]
    (by decide) (by decide) (by decide) (by decide)).1 1 (by decide) (by decide) (by decide)

/-- C2 at a concrete input: when `realloc` moves the block for `path /a /b /c`,
the variable `path` of `main` is left pointing to the freed block, and the next
command `foo` is looked up through it: no candidate `/a/foo` is probed. -/
theorem path_three_entries_lost :
    process_line os_relocating (initial_shell dir_home) line_path_three
      = .next { path := none, cwd := dir_home, trace := [.realloc 4 true],
                calls := [some line_path_three] } ∧
    process_line os_relocating
        { path := none, cwd := dir_home, trace := [.realloc 4 true],
          calls := [some line_path_three] } line_foo
      = .undefined { path := none, cwd := dir_home, trace := [.realloc 4 true],
                     calls := [some line_path_three, some line_foo] } := by
  decide

/-- C7: a segment whose command name is `exit` reports the error and returns 0
when it has arguments, and the dispatch loop goes on with the next segment; with
no argument it terminates the process with status 0, the dispatch loop stops
there and the wait loop is not run, so no `waitpid` is issued. -/
theorem exit_builtin (os : OS) (st : Shell) (seg : CStr) (st1 : Shell)
    (output : Option Stream) (argc : Nat) (args : List (Option CStr))
    (hparse : parse_segment os st seg = .command st1 output argc args)
    (hname : args.head? = some (some kw_exit)) :
    (argc ≠ 1 →
      execute_command os st (some seg) = .ret 0 (close_output output (st1.log .write_err))) ∧
    (argc = 1 →
      execute_command os st (some seg) = .exited 0 (st1.log (.exit 0)) ∧
      ∀ pid, Event.waitpid pid ∈ (st1.log (.exit 0)).trace → Event.waitpid pid ∈ st.trace) ∧
    (∀ (n : Nat) (st0 : Shell) (input : Option CStr) (pids : List Int),
      (strsep input '&').1 = some seg →
      st = { st0 with calls := st0.calls ++ [some seg] } →
      (argc ≠ 1 →
        dispatch_loop os (n + 1) st0 input pids
          = dispatch_loop os n (close_output output (st1.log .write_err))
              (strsep input '&').2 (pids ++ [0])) ∧
      (argc = 1 →
        finish_line (dispatch_loop os (n + 1) st0 input pids)
          = .exited 0 (st1.log (.exit 0)))) := by
  have hexec := execute_command_of_parse os st seg st1 output argc args hparse
  have hrun1 : argc ≠ 1 →
      run_command os st1 output argc args = .ret 0 (close_output output (st1.log .write_err)) := by
    intro h
    simp [run_command, hname, h, builtin_cleanup]
  have hrun2 : argc = 1 → run_command os st1 output argc args = .exited 0 (st1.log (.exit 0)) := by
    intro h
    simp [run_command, hname, h]
  refine ⟨fun h => by rw [hexec, hrun1 h], fun h => ⟨by rw [hexec, hrun2 h], ?_⟩, ?_⟩
  · intro pid hmem
    simp only [log_trace, List.mem_append, List.mem_singleton] at hmem
    rcases hmem with hmem | hmem
    · rcases parse_segment_trace os st seg st1 output argc args hparse with ⟨_, ht⟩ | ⟨f, _, ht⟩
      · rw [ht] at hmem; exact hmem
      · rw [ht] at hmem
        simp only [List.mem_append, List.mem_singleton] at hmem
        rcases hmem with hmem | hmem
        · exact hmem
        · exact Event.noConfusion hmem
    · exact Event.noConfusion hmem
  · intro n st0 input pids hnext hst
    constructor
    · intro h
      apply dispatch_step_ret
      rw [hnext, ← hst, hexec, hrun1 h]
    · intro h
      apply dispatch_step_exited
      rw [hnext, ← hst, hexec, hrun2 h]

/-- C7 on instances: `exit` alone as first segment of `exit&ls` terminates the
process with nothing else dispatched and nothing waited for. -/
theorem exit_builtin_witness :
    execute_command os_plain (initial_shell dir_home) (some seg_exit)
      = .exited 0 ((initial_shell dir_home).log (.exit 0)) ∧
    ∀ pid, Event.waitpid pid ∈ ((initial_shell dir_home).log (.exit 0)).trace →
      Event.waitpid pid ∈ (initial_shell dir_home).trace :=
  (exit_builtin os_plain (initial_shell dir_home) seg_exit (initial_shell dir_home) none 1
    [some kw_exit, none] (by decide) (by decide)).2.1 rfl

/-! ## Properties of the redirection -/

/-- C8: a segment whose text after the first `>` contains another `>`, or still
contains a space once normalised, makes `execute_command` write the error message
and return 0 with nothing else done (no file opened, no process), and the dispatch
loop goes on with the next segment in a state that differs by that message only. -/
theorem bad_redirection_rejected (os : OS) (st : Shell) (cmd raw : CStr)
    (hcmd : '>' ∉ cmd) (hbad : '>' ∈ raw ∨ ' ' ∈ clean_whitespace raw) :
    execute_command os st (some (cmd ++ '>' :: raw)) = .ret 0 (st.log .write_err) ∧
    ∀ (n : Nat) (st0 : Shell) (input : Option CStr) (pids : List Int),
      (strsep input '&').1 = some (cmd ++ '>' :: raw) →
      dispatch_loop os (n + 1) st0 input pids
        = dispatch_loop os n
            ({ st0 with calls := st0.calls ++ [some (cmd ++ '>' :: raw)] }.log .write_err)
            (strsep input '&').2 (pids ++ [0]) := by
  have h : ∀ st : Shell,
      execute_command os st (some (cmd ++ '>' :: raw)) = .ret 0 (st.log .write_err) := by
    intro st
    simp only [execute_command, parse_segment_bad_target os st cmd raw hcmd hbad]
  refine ⟨h st, ?_⟩
  intro n st0 input pids hnext
  apply dispatch_step_ret
  rw [hnext, h]

/-- C8 on the segment `cmd1 > a > b`. -/
theorem bad_redirection_rejected_witness :
    execute_command os_plain (initial_shell dir_home) (some seg_two_redirects)
      = .ret 0 ((initial_shell dir_home).log .write_err) :=
  (bad_redirection_rejected os_plain (initial_shell dir_home) "cmd1 ".toList " a > b".toList
    (by decide) (by decide)).1

/-- C9: a segment whose text after the first `>` normalises to the empty string
fails: the empty name cannot be opened, the error message is written, no process
is launched, 0 is returned and the dispatch loop goes on with the next segment. -/
theorem empty_redirection_target_rejected (os : OS) (st : Shell) (cmd raw : CStr)
    (hcmd : '>' ∉ cmd) (hraw : clean_whitespace raw = []) :
    execute_command os st (some (cmd ++ '>' :: raw))
      = .ret 0 ((st.log (.fopen [] false)).log .write_err) ∧
    ∀ (n : Nat) (st0 : Shell) (input : Option CStr) (pids : List Int),
      (strsep input '&').1 = some (cmd ++ '>' :: raw) →
      dispatch_loop os (n + 1) st0 input pids
        = dispatch_loop os n
            (({ st0 with calls := st0.calls ++ [some (cmd ++ '>' :: raw)] }.log
              (.fopen [] false)).log .write_err)
            (strsep input '&').2 (pids ++ [0]) := by
  have h : ∀ st : Shell, execute_command os st (some (cmd ++ '>' :: raw))
      = .ret 0 ((st.log (.fopen [] false)).log .write_err) := by
    intro st
    simp only [execute_command, parse_segment_empty_target os st cmd raw hcmd hraw]
  refine ⟨h st, ?_⟩
  intro n st0 input pids hnext
  apply dispatch_step_ret
  rw [hnext, h]

/-- C9 on the segment `ls >` followed by blanks. -/
theorem empty_redirection_target_rejected_witness :
    execute_command os_plain (initial_shell dir_home) (some seg_no_target)
      = .ret 0 (((initial_shell dir_home).log (.fopen [] false)).log .write_err) :=
  (empty_redirection_target_rejected os_plain (initial_shell dir_home) "ls ".toList
    "   ".toList (by decide) (by decide)).1

/-- C10: a line made of spaces, tabs, newlines and `&` only is processed to its
end with the history unchanged (no process, no error message, no file opened, no
wait), the search path and working directory unchanged, and the loop of `main`
goes on with the next line. -/
theorem blank_line_is_noop (os : OS) (st : Shell) (line : CStr)
    (h : ∀ c ∈ line, c = ' ' ∨ c = '\t' ∨ c = '\n' ∨ c = '&') :
    ∃ st2, process_line os st line = .next st2 ∧
      st2.trace = st.trace ∧ st2.path = st.path ∧ st2.cwd = st.cwd ∧
      ∀ rest, main_loop os (line :: rest) st = main_loop os rest st2 := by
  obtain ⟨htok, _⟩ := strsep_iter_eq_splitOn '&' line
  have hblank : ∀ t ∈ strsep_iter '&' (count_char line '&' + 1) (some line),
      ∃ s, t = some s ∧ ∀ c ∈ s, is_blank c = true := by
    intro t ht
    rw [htok] at ht
    obtain ⟨s, hs, rfl⟩ := List.mem_map.1 ht
    refine ⟨s, rfl, ?_⟩
    intro c hc
    have hp := splitOnP_pieces (· == '&') line s hs c hc
    rcases h c hp.1 with e | e | e | e
    · rw [e]; decide
    · rw [e]; decide
    · rw [e]; decide
    · rw [e] at hp; exact absurd hp.2 (by decide)
  have hline : process_line os st line
      = .next { st with calls :=
          st.calls ++ strsep_iter '&' (count_char line '&' + 1) (some line) } := by
    unfold process_line
    rw [dispatch_blank os _ st (some line) [] hblank]
    simp [finish_line, wait_all_zeros]
  refine ⟨_, hline, rfl, rfl, rfl, ?_⟩
  intro rest
  simp only [main_loop, hline]

/-- C10 on the line of a space, a tab, `&`, a space, `&` and a newline. -/
theorem blank_line_is_noop_witness :
    ∃ st2, process_line os_plain (initial_shell dir_home) line_blank = .next st2 ∧
      st2.trace = (initial_shell dir_home).trace ∧ st2.path = (initial_shell dir_home).path ∧
      st2.cwd = (initial_shell dir_home).cwd ∧
      ∀ rest, main_loop os_plain (line_blank :: rest) (initial_shell dir_home)
        = main_loop os_plain rest st2 :=
  blank_line_is_noop os_plain (initial_shell dir_home) line_blank (by decide)

/-! ## Lemmas on the words of a string -/

theorem blank_runs_words (s : CStr) :
    ∀ w ∈ blank_runs s, w ≠ [] ∧ ∀ c ∈ w, is_blank c = false := by
  intro w hw
  unfold blank_runs at hw
  obtain ⟨h1, h2⟩ := List.mem_filter.1 hw
  refine ⟨?_, fun c hc => (splitOnP_pieces is_blank s w h1 c hc).2⟩
  intro e; subst e; simp at h2

theorem filter_nonempty_self (W : List CStr) (h : ∀ w ∈ W, w ≠ []) :
    W.filter (fun w => !w.isEmpty) = W := by
  rw [List.filter_eq_self]
  intro w hw
  have := h w hw
  cases w <;> simp at this ⊢

/-- Splitting the words joined by one separator gives the words back. -/
theorem splitOnP_intercalate (p : Char → Bool) (sep : Char) (hsep : p sep = true) :
    ∀ W : List CStr, W ≠ [] → (∀ w ∈ W, ∀ c ∈ w, p c = false) →
    (List.intercalate [sep] W).splitOnP p = W := by
  intro W
  induction W with
  | nil => intro h; exact absurd rfl h
  | cons w W ih =>
    intro _ hW
    have hw : ∀ x ∈ w, ¬ (p x = true) := fun x hx => by simp [hW w (by simp) x hx]
    cases W with
    | nil =>
      have : List.intercalate [sep] [w] = w := by simp [List.intercalate]
      rw [this]
      exact List.splitOnP_eq_single p w hw
    | cons w2 t =>
      rw [intercalate_cons_cons, List.append_assoc, List.singleton_append,
        List.splitOnP_first p w hw sep hsep,
        ih (by simp) (fun x hx => hW x (List.mem_cons_of_mem _ hx))]

theorem blank_runs_normalise_ref (s : CStr) : blank_runs (normalise_ref s) = blank_runs s := by
  unfold normalise_ref
  by_cases h : blank_runs s = []
  · rw [h]; rfl
  · show ((List.intercalate [' '] (blank_runs s)).splitOnP is_blank).filter
        (fun w => !w.isEmpty) = blank_runs s
    rw [splitOnP_intercalate is_blank ' ' (by decide) _ h
      (fun w hw => (blank_runs_words s w hw).2)]
    exact filter_nonempty_self _ (fun w hw => (blank_runs_words s w hw).1)

theorem sq_length (R : CStr) : ∀ p : Bool, (sq p R).length ≤ R.length := by
  induction R with
  | nil => intro p; simp [sq]
  | cons x R ih =>
    intro p
    by_cases hb : is_blank x = true
    · cases p
      · simpa [sq, hb] using ih true
      · have := ih true
        simp only [sq, hb, if_true, List.length_cons]
        omega
    · simpa [sq, hb] using ih false

theorem rstrip_length (l : CStr) : (rstrip l).length ≤ l.length := by
  induction l with
  | nil => simp [rstrip]
  | cons x l ih =>
    simp only [rstrip]
    split
    · simp
    · simpa using ih

/-! ## More properties of clean_whitespace -/

/-- C20: `clean_whitespace` is idempotent, and its result is never longer than
its input. -/
theorem clean_whitespace_idempotent (s : CStr) :
    clean_whitespace (clean_whitespace s) = clean_whitespace s ∧
    (clean_whitespace s).length ≤ s.length := by
  constructor
  · rw [clean_whitespace_eq_ref (clean_whitespace s), clean_whitespace_eq_ref s]
    show List.intercalate [' '] (blank_runs (normalise_ref s)) = normalise_ref s
    rw [blank_runs_normalise_ref]
    rfl
  · rw [clean_whitespace_eq]
    exact Nat.le_trans (rstrip_length _)
      (Nat.le_trans (sq_length _ _) (List.dropWhile_suffix is_blank).length_le)

/-! ## The shape of the history a call of execute_command adds -/

theorem close_output_trace (o : Option Stream) (st : Shell) :
    (close_output o st).trace = st.trace ++ closing o := by
  cases o <;> simp [close_output, closing]

@[simp] theorem extend_trace (st : Shell) (es : List Event) :
    (st.extend es).trace = st.trace ++ es := rfl

theorem log_extend (st : Shell) (e : Event) (es : List Event) :
    (st.log e).extend es = st.extend (e :: es) := by
  simp [Shell.log, Shell.extend]

theorem extend_nil (st : Shell) : st.extend [] = st := by
  simp [Shell.extend]

theorem probes_failed_quiet (c : CStr) (ds : List CStr) :
    ∀ e ∈ probes_failed c ds, e.is_quiet = true := by
  intro e he
  unfold probes_failed at he
  obtain ⟨d, _, rfl⟩ := List.mem_map.1 he
  rfl

theorem sys_fork_ne_zero (os : OS) (tr : List Event) : sys_fork os tr ≠ 0 := by
  unfold sys_fork
  cases os.fork tr with
  | none => decide
  | some k => simp only; omega

/-- Every run of the launch loop is of one of three shapes: it runs off the
block, or it finds nothing (failed probes, the error message, return 0), or it
forks at the first executable candidate and returns what `fork` returned. -/
theorem launch_shape (os : OS) (c : CStr) (args : List (Option CStr)) (o : Option Stream) :
    ∀ (slots : List (Option CStr)) (st : Shell),
    (∃ pre, launch os c args o slots st = .undefined (st.extend (probes_failed c pre))) ∨
    (∃ pre, launch os c args o slots st
      = .ret 0 (close_output o (st.extend (probes_failed c pre ++ [.write_err])))) ∨
    (∃ pre d, launch os c args o slots st
      = .ret (sys_fork os (st.trace ++ probes_failed c pre ++ [.access (full_path_of d c) true]))
          (close_output o (st.extend (probes_failed c pre ++
            [.access (full_path_of d c) true,
             .fork (child_program o (full_path_of d c) args)
               (sys_fork os (st.trace ++ probes_failed c pre ++
                 [.access (full_path_of d c) true]))])))) := by
  intro slots
  induction slots with
  | nil =>
    intro st
    exact Or.inl ⟨[], by simp [launch, probes_failed, extend_nil]⟩
  | cons x slots ih =>
    intro st
    cases x with
    | none =>
      exact Or.inr (Or.inl ⟨[], by simp [launch, probes_failed, Shell.log, Shell.extend]⟩)
    | some d =>
      by_cases hacc : os.access_x st.trace (full_path_of d c) = true
      · refine Or.inr (Or.inr ⟨[], d, ?_⟩)
        simp [launch, hacc, probes_failed, Shell.log, Shell.extend]
      · have hacc2 : os.access_x st.trace (full_path_of d c) = false := by simpa using hacc
        have hstep : launch os c args o (some d :: slots) st
            = launch os c args o slots (st.log (.access (full_path_of d c) false)) := by
          simp [launch, hacc2]
        have hpr : ∀ pre, probes_failed c (d :: pre)
            = Event.access (full_path_of d c) false :: probes_failed c pre := fun pre => rfl
        rw [hstep]
        rcases ih (st.log (.access (full_path_of d c) false)) with ⟨pre, h⟩ | ⟨pre, h⟩ | ⟨pre, d2, h⟩
        · exact Or.inl ⟨d :: pre, by rw [h, log_extend, hpr]⟩
        · exact Or.inr (Or.inl ⟨d :: pre, by rw [h, log_extend, hpr]; rfl⟩)
        · refine Or.inr (Or.inr ⟨d :: pre, d2, ?_⟩)
          rw [h, log_extend, hpr]
          simp [Shell.log]

theorem builtin_cleanup_shape (st : Shell) (flag : Nat) (o : Option Stream) :
    ∃ st2, builtin_cleanup st flag o = .ret 0 st2 ∧
      st2.trace = st.trace ++ (if flag = 1 then [Event.write_err] else []) ++ closing o := by
  refine ⟨_, rfl, ?_⟩
  rw [close_output_trace]
  split <;> simp

/-- Every run of the second half of `execute_command` is of one of four
shapes: undefined behaviour after quiet events; `exit(0)`; a return of 0 after
quiet events, among them at most one error message, and the closing of the
stream; or failed probes, one successful
probe, one `fork` whose child runs the candidate with `args`, the closing of the
stream and the return of what `fork` returned. -/
theorem run_command_shape (os : OS) (st1 : Shell) (o : Option Stream) (argc : Nat)
    (args : List (Option CStr)) :
    (∃ body, run_command os st1 o argc args = .undefined (st1.extend body) ∧
      ∀ e ∈ body, e.is_quiet = true) ∨
    (run_command os st1 o argc args = .exited 0 (st1.log (.exit 0))) ∨
    (∃ st2 body, run_command os st1 o argc args = .ret 0 st2 ∧
      st2.trace = st1.trace ++ body ++ closing o ∧ (∀ e ∈ body, e.is_quiet = true) ∧
      (body.filter Event.is_err).length ≤ 1) ∨
    (∃ pre d c, args.head? = some (some c) ∧ c ≠ kw_exit ∧ c ≠ kw_cd ∧ c ≠ kw_path ∧
      run_command os st1 o argc args
      = .ret (sys_fork os (st1.trace ++ probes_failed c pre ++ [.access (full_path_of d c) true]))
          (close_output o (st1.extend (probes_failed c pre ++
            [.access (full_path_of d c) true,
             .fork (child_program o (full_path_of d c) args)
               (sys_fork os (st1.trace ++ probes_failed c pre ++
                 [.access (full_path_of d c) true]))])))) := by
  have hundef : run_command os st1 o argc args = .undefined st1 →
      ∃ body, run_command os st1 o argc args = .undefined (st1.extend body) ∧
        ∀ e ∈ body, e.is_quiet = true := by
    intro h
    exact ⟨[], by rw [h, extend_nil], by simp⟩
  have hclean : ∀ (st : Shell) (flag : Nat) (pre : List Event),
      run_command os st1 o argc args = builtin_cleanup st flag o →
      st.trace = st1.trace ++ pre → (∀ e ∈ pre, e.is_quiet = true ∧ e.is_err = false) →
      ∃ st2 body, run_command os st1 o argc args = .ret 0 st2 ∧
        st2.trace = st1.trace ++ body ++ closing o ∧ (∀ e ∈ body, e.is_quiet = true) ∧
        (body.filter Event.is_err).length ≤ 1 := by
    intro st flag pre hrun htr hq
    obtain ⟨st2, h1, h2⟩ := builtin_cleanup_shape st flag o
    have hpre : pre.filter Event.is_err = [] := by
      rw [List.filter_eq_nil_iff]
      intro e he
      simp [(hq e he).2]
    refine ⟨st2, pre ++ (if flag = 1 then [Event.write_err] else []), by rw [hrun, h1], ?_, ?_,
      ?_⟩
    · rw [h2, htr]; simp
    · intro e he
      rcases List.mem_append.1 he with h | h
      · exact (hq e h).1
      · split at h
        · simp only [List.mem_singleton] at h; rw [h]; rfl
        · simp at h
    · rw [List.filter_append, hpre]
      split <;> simp [List.filter_cons, Event.is_err]
  cases hhead : args.head? with
  | none => exact Or.inl (hundef (by simp [run_command, hhead]))
  | some x =>
    cases x with
    | none => exact Or.inl (hundef (by simp [run_command, hhead]))
    | some c =>
      by_cases hexit : c = kw_exit
      · by_cases harg : argc = 1
        · exact Or.inr (Or.inl (by simp [run_command, hhead, hexit, harg]))
        · refine Or.inr (Or.inr (Or.inl (hclean st1 1 [] ?_ (by simp) (by simp))))
          simp only [run_command, hhead, hexit, harg, if_true, ne_eq, not_false_eq_true]
      · by_cases hcd : c = kw_cd
        · have hne : kw_cd ≠ kw_exit := by decide
          cases hch : sys_chdir os st1.trace (args.get? 1).join with
          | none =>
            refine Or.inr (Or.inr (Or.inl (hclean (st1.log (.chdir (args.get? 1).join false)) 1
              [.chdir (args.get? 1).join false] ?_ (by simp)
              (by simp [Event.is_quiet, Event.is_err]))))
            simp only [run_command, hhead, hcd, if_neg hne, if_true, hch]
          | some dnew =>
            refine Or.inr (Or.inr (Or.inl
              (hclean { st1.log (.chdir (args.get? 1).join true) with cwd := dnew }
                (if argc ≠ 2 then 1 else 0)
                [.chdir (args.get? 1).join true] ?_ (by simp [Shell.log])
                (by simp [Event.is_quiet, Event.is_err]))))
            simp only [run_command, hhead, hcd, if_neg hne, if_true, hch]
        · by_cases hpath : c = kw_path
          · have hne1 : kw_path ≠ kw_exit := by decide
            have hne2 : kw_path ≠ kw_cd := by decide
            cases hp : st1.path with
            | none =>
              exact Or.inl (hundef (by
                simp only [run_command, hhead, hpath, if_neg hne1, if_neg hne2, if_true, hp]))
            | some slots =>
              refine Or.inr (Or.inr (Or.inl
                (hclean { st1.log (.realloc argc (os.realloc_moves st1.trace argc)) with
                    path := if os.realloc_moves st1.trace argc then none
                      else some ((List.range argc).map (fun i => (args.get? (i + 1)).join)) }
                  0 [.realloc argc (os.realloc_moves st1.trace argc)] ?_ (by simp [Shell.log])
                  (by simp [Event.is_quiet, Event.is_err]))))
              simp only [run_command, hhead, hpath, if_neg hne1, if_neg hne2, if_true, hp]
          · cases hp : st1.path with
            | none =>
              exact Or.inl (hundef (by
                simp only [run_command, hhead, if_neg hexit, if_neg hcd, if_neg hpath, hp]))
            | some slots =>
              have hrun := run_command_external os st1 o argc args c slots hhead
                ⟨hexit, hcd, hpath⟩ hp
              rcases launch_shape os c args o slots st1 with ⟨pre, h⟩ | ⟨pre, h⟩ | ⟨pre, d, h⟩
              · exact Or.inl ⟨_, by rw [hrun, h], probes_failed_quiet c pre⟩
              · refine Or.inr (Or.inr (Or.inl
                  ⟨_, probes_failed c pre ++ [.write_err], by rw [hrun, h], ?_, ?_, ?_⟩))
                · simp [close_output_trace]
                · intro e he
                  rcases List.mem_append.1 he with h1 | h1
                  · exact probes_failed_quiet c pre e h1
                  · simp only [List.mem_singleton] at h1; rw [h1]; rfl
                · have hpr : (probes_failed c pre).filter Event.is_err = [] := by
                    rw [List.filter_eq_nil_iff]
                    intro e he
                    unfold probes_failed at he
                    obtain ⟨d, _, rfl⟩ := List.mem_map.1 he
                    simp [Event.is_err]
                  rw [List.filter_append, hpr]
                  simp [List.filter_cons, Event.is_err]
              · exact Or.inr (Or.inr (Or.inr ⟨pre, d, c, rfl, hexit, hcd, hpath, by rw [hrun, h]⟩))

/-! ## The shape of the parse of a segment -/

theorem parse_args_eq_strsep_iter : ∀ (n : Nat) (input : Option CStr),
    parse_args n input = strsep_iter ' ' n input := by
  intro n
  induction n with
  | zero => intro input; rfl
  | succ n ih => intro input; simp [parse_args, strsep_iter, ih]

theorem clean_whitespace_nil_iff (s : CStr) : clean_whitespace s = [] ↔ blank_runs s = [] := by
  rw [clean_whitespace_eq_ref, normalise_ref]
  constructor
  · exact intercalate_eq_nil _ (fun w hw => (blank_runs_words s w hw).1)
  · intro h; rw [h]; rfl

/-- The words of the normalised command, cut at the single spaces, are the
maximal runs of non-blank characters of the command. -/
theorem splitOn_clean_whitespace (s : CStr) (h : clean_whitespace s ≠ []) :
    (clean_whitespace s).splitOn ' ' = blank_runs s := by
  have hne : blank_runs s ≠ [] := fun e => h ((clean_whitespace_nil_iff s).2 e)
  rw [clean_whitespace_eq_ref, normalise_ref]
  exact splitOnP_intercalate (· == ' ') ' ' (by simp) _ hne (fun w hw c hc => by
    have := (blank_runs_words s w hw).2 c hc
    simp only [beq_eq_false_iff_ne, ne_eq]
    intro e; subst e
    rw [not_blank_space] at this
    exact Bool.noConfusion this)

/-- Lines 151-171 in closed form: an empty normalised command returns (closing
the stream and writing the error message when there is a stream); otherwise
`args` holds the words of the command followed by `NULL` and `argc` is their
number. -/
theorem parse_command_cases (st : Shell) (o : Option Stream) (command : CStr) :
    (clean_whitespace command = [] ∧
      parse_command st o command
        = .returned (match o with
            | some f => st.extend [.fclose f, .write_err]
            | none => st)) ∨
    (clean_whitespace command ≠ [] ∧
      parse_command st o command
        = .command st o (blank_runs command).length
            ((blank_runs command).map some ++ [none])) := by
  by_cases h : clean_whitespace command = []
  · refine Or.inl ⟨h, ?_⟩
    unfold parse_command
    simp only [h, List.isEmpty_nil, if_true]
    cases o <;> simp [Shell.log, Shell.extend]
  · refine Or.inr ⟨h, ?_⟩
    obtain ⟨htok, hlen⟩ := strsep_iter_eq_splitOn ' ' (clean_whitespace command)
    rw [splitOn_clean_whitespace command h] at htok hlen
    have hemp : (clean_whitespace command).isEmpty = false := by
      cases hc : clean_whitespace command with
      | nil => exact absurd hc h
      | cons x xs => rfl
    unfold parse_command
    simp only [hemp, Bool.false_eq_true, if_false, Nat.add_sub_cancel, parse_args_eq_strsep_iter]
    simp only [strsep_iter] at htok
    rw [htok, hlen]

theorem strsep_scan_cases (d : Char) (seg : CStr) :
    d ∉ seg ∨ ∃ cmd raw, seg = cmd ++ d :: raw ∧ d ∉ cmd := by
  induction seg with
  | nil => exact Or.inl (by simp)
  | cons x seg ih =>
    by_cases hx : x = d
    · exact Or.inr ⟨[], seg, by simp [hx], by simp⟩
    · rcases ih with h | ⟨cmd, raw, h1, h2⟩
      · exact Or.inl (by simp [h, Ne.symm hx])
      · exact Or.inr ⟨x :: cmd, raw, by simp [h1], by simp [h2, Ne.symm hx]⟩

theorem parse_segment_no_redirect (os : OS) (st : Shell) (seg : CStr) (h : '>' ∉ seg) :
    parse_segment os st seg = parse_command st none seg := by
  unfold parse_segment
  simp only [strsep_scan_no_delim '>' seg h]

theorem parse_segment_redirect (os : OS) (st : Shell) (cmd raw : CStr) (h : '>' ∉ cmd) :
    parse_segment os st (cmd ++ '>' :: raw)
      = if strchr_found (clean_whitespace raw) '>' || strchr_found (clean_whitespace raw) ' '
        then .returned (st.log .write_err)
        else if sys_fopen os st.trace (clean_whitespace raw) then
          parse_command (st.log (.fopen (clean_whitespace raw) true))
            (some ⟨st.trace.length, clean_whitespace raw⟩) cmd
        else .returned ((st.log (.fopen (clean_whitespace raw) false)).log .write_err) := by
  unfold parse_segment
  simp only [strsep_scan_append '>' cmd raw h]

/-- Inversion of a parse that yields a command: either the segment has no `>`,
nothing was opened and the state is unchanged, or the segment is `cmd > raw`, the
normalised target is one word, it was opened as the first and only event, and the
stream is the one just opened.  In both cases the command part normalises to a
non-empty string whose words are `args`. -/
theorem parse_segment_command_inv (os : OS) (st : Shell) (seg : CStr) (st1 : Shell)
    (o : Option Stream) (argc : Nat) (args : List (Option CStr))
    (hparse : parse_segment os st seg = .command st1 o argc args) :
    clean_whitespace (strsep_scan '>' seg).1 ≠ [] ∧
    argc = (blank_runs (strsep_scan '>' seg).1).length ∧
    args = (blank_runs (strsep_scan '>' seg).1).map some ++ [none] ∧
    (('>' ∉ seg ∧ o = none ∧ st1 = st) ∨
     (∃ cmd raw, seg = cmd ++ '>' :: raw ∧ '>' ∉ cmd ∧
        '>' ∉ clean_whitespace raw ∧ ' ' ∉ clean_whitespace raw ∧
        sys_fopen os st.trace (clean_whitespace raw) = true ∧
        o = some ⟨st.trace.length, clean_whitespace raw⟩ ∧
        st1 = st.log (.fopen (clean_whitespace raw) true))) := by
  rcases strsep_scan_cases '>' seg with hno | ⟨cmd, raw, hseg, hcmd⟩
  · rw [parse_segment_no_redirect os st seg hno] at hparse
    rw [strsep_scan_no_delim '>' seg hno]
    rcases parse_command_cases st none seg with ⟨_, h⟩ | ⟨hne, h⟩
    · rw [h] at hparse; exact Parsed.noConfusion hparse
    · rw [h] at hparse
      simp only [Parsed.command.injEq] at hparse
      exact ⟨hne, hparse.2.2.1.symm, hparse.2.2.2.symm, Or.inl ⟨hno, hparse.2.1.symm, hparse.1.symm⟩⟩
  · subst hseg
    rw [parse_segment_redirect os st cmd raw hcmd] at hparse
    rw [strsep_scan_append '>' cmd raw hcmd]
    split at hparse
    · exact Parsed.noConfusion hparse
    · rename_i hbad
      split at hparse
      · rename_i hopen
        rcases parse_command_cases (st.log (.fopen (clean_whitespace raw) true))
            (some ⟨st.trace.length, clean_whitespace raw⟩) cmd with ⟨_, h⟩ | ⟨hne, h⟩
        · rw [h] at hparse; exact Parsed.noConfusion hparse
        · rw [h] at hparse
          simp only [Parsed.command.injEq] at hparse
          simp only [Bool.or_eq_true, not_or, Bool.not_eq_true] at hbad
          refine ⟨hne, hparse.2.2.1.symm, hparse.2.2.2.symm, Or.inr ⟨cmd, raw, rfl, hcmd, ?_, ?_,
            hopen, hparse.2.1.symm, hparse.1.symm⟩⟩
          · intro hm
            have := (strchr_found_iff _ _).2 hm
            rw [hbad.1] at this; exact Bool.noConfusion this
          · intro hm
            have := (strchr_found_iff _ _).2 hm
            rw [hbad.2] at this; exact Bool.noConfusion this
      · exact Parsed.noConfusion hparse

/-- Inversion of a parse that returns at once: nothing happened (no `>`, empty
command), or the error message was written after a rejected target, a failed
`fopen`, or a successful `fopen` closed again (empty command). -/
theorem parse_segment_returned_inv (os : OS) (st : Shell) (seg : CStr) (st2 : Shell)
    (hparse : parse_segment os st seg = .returned st2) :
    ('>' ∉ seg ∧ clean_whitespace seg = [] ∧ st2 = st) ∨
    (∃ cmd raw, seg = cmd ++ '>' :: raw ∧ '>' ∉ cmd ∧
      (st2 = st.extend [.write_err] ∨
       st2 = st.extend [.fopen (clean_whitespace raw) false, .write_err] ∨
       (clean_whitespace cmd = [] ∧
        st2 = st.extend [.fopen (clean_whitespace raw) true,
          .fclose ⟨st.trace.length, clean_whitespace raw⟩, .write_err]))) := by
  rcases strsep_scan_cases '>' seg with hno | ⟨cmd, raw, hseg, hcmd⟩
  · rw [parse_segment_no_redirect os st seg hno] at hparse
    rcases parse_command_cases st none seg with ⟨he, h⟩ | ⟨_, h⟩
    · rw [h] at hparse
      simp only [Parsed.returned.injEq] at hparse
      exact Or.inl ⟨hno, he, hparse.symm⟩
    · rw [h] at hparse; exact Parsed.noConfusion hparse
  · subst hseg
    refine Or.inr ⟨cmd, raw, rfl, hcmd, ?_⟩
    rw [parse_segment_redirect os st cmd raw hcmd] at hparse
    split at hparse
    · simp only [Parsed.returned.injEq] at hparse
      exact Or.inl (by rw [← hparse]; rfl)
    · split at hparse
      · rcases parse_command_cases (st.log (.fopen (clean_whitespace raw) true))
            (some ⟨st.trace.length, clean_whitespace raw⟩) cmd with ⟨he, h⟩ | ⟨_, h⟩
        · rw [h] at hparse
          simp only [Parsed.returned.injEq] at hparse
          exact Or.inr (Or.inr ⟨he, by rw [← hparse, log_extend]⟩)
        · rw [h] at hparse; exact Parsed.noConfusion hparse
      · simp only [Parsed.returned.injEq] at hparse
        exact Or.inr (Or.inl (by rw [← hparse]; simp [Shell.log, Shell.extend]))

/-! ## Lemmas on the processes a call of execute_command creates -/

theorem quiet_not_fork (e : Event) (h : e.is_quiet = true) : e.is_fork = false := by
  cases e <;> first | rfl | exact Bool.noConfusion h

theorem quiet_not_stream (e : Event) (h : e.is_quiet = true) : e.is_stream = false := by
  cases e <;> first | rfl | exact Bool.noConfusion h

theorem closing_not_fork (o : Option Stream) : ∀ e ∈ closing o, e.is_fork = false := by
  cases o <;> simp [closing, Event.is_fork]

/-- The `fork` events a run of the second half of `execute_command` adds all
carry the child program built from `output` and `args`. -/
theorem run_command_forks (os : OS) (st1 : Shell) (o : Option Stream) (argc : Nat)
    (args : List (Option CStr)) (child : List ChildAction) (pid : Int)
    (h : Event.fork child pid ∈ (run_command os st1 o argc args).state.trace) :
    Event.fork child pid ∈ st1.trace ∨ ∃ full, child = child_program o full args := by
  rcases run_command_shape os st1 o argc args with ⟨body, hr, hq⟩ | hr | ⟨st2, body, hr, ht, hq, _⟩ |
    ⟨pre, d, c, _, _, _, _, hr⟩
  · rw [hr] at h
    simp only [Outcome.state, extend_trace, List.mem_append] at h
    rcases h with h | h
    · exact Or.inl h
    · exact absurd (quiet_not_fork _ (hq _ h)) (by simp [Event.is_fork])
  · rw [hr] at h
    simp only [Outcome.state, log_trace, List.mem_append, List.mem_singleton] at h
    rcases h with h | h
    · exact Or.inl h
    · exact Event.noConfusion h
  · rw [hr] at h
    simp only [Outcome.state, ht, List.mem_append] at h
    rcases h with (h | h) | h
    · exact Or.inl h
    · exact absurd (quiet_not_fork _ (hq _ h)) (by simp [Event.is_fork])
    · exact absurd (closing_not_fork o _ h) (by simp [Event.is_fork])
  · rw [hr] at h
    simp only [Outcome.state, close_output_trace, extend_trace, List.mem_append, List.mem_cons,
      List.mem_singleton] at h
    rcases h with (h | h | h | h | h) | h
    · exact Or.inl h
    · exact absurd (quiet_not_fork _ (probes_failed_quiet c pre _ h)) (by simp [Event.is_fork])
    · exact Event.noConfusion h
    · simp only [Event.fork.injEq] at h
      exact Or.inr ⟨_, h.1⟩
    · exact absurd h (List.not_mem_nil _)
    · exact absurd (closing_not_fork o _ h) (by simp [Event.is_fork])

theorem parse_segment_command_forks (os : OS) (st : Shell) (seg : CStr) (st1 : Shell)
    (o : Option Stream) (argc : Nat) (args : List (Option CStr))
    (hparse : parse_segment os st seg = .command st1 o argc args)
    (child : List ChildAction) (pid : Int) (h : Event.fork child pid ∈ st1.trace) :
    Event.fork child pid ∈ st.trace := by
  rcases parse_segment_trace os st seg st1 o argc args hparse with ⟨_, ht⟩ | ⟨f, _, ht⟩
  · rw [ht] at h; exact h
  · rw [ht] at h
    simp only [List.mem_append, List.mem_singleton] at h
    rcases h with h | h
    · exact h
    · exact Event.noConfusion h

/-! ## Properties of the argument vector -/

/-- C12: when `execute_command` builds an argument vector for a segment, the
command part normalises to a non-empty string, `args` is the list of the words of
the command part (its maximal runs of characters other than space, tab and
newline) in order followed by `NULL` at index `argc`, `argc` is their number,
every word is non-empty and free of blanks, and every child the call forks is
handed this very vector (with `args[0]` as typed).  Lines 151-171 build the vector
whenever the command part normalises to a non-empty string. -/
theorem argument_vector_is_words (os : OS) (st : Shell) (seg : CStr) (st1 : Shell)
    (output : Option Stream) (argc : Nat) (args : List (Option CStr))
    (hparse : parse_segment os st seg = .command st1 output argc args) :
    clean_whitespace (strsep_scan '>' seg).1 ≠ [] ∧
    args = (blank_runs (strsep_scan '>' seg).1).map some ++ [none] ∧
    argc = (blank_runs (strsep_scan '>' seg).1).length ∧
    0 < argc ∧
    args.get? argc = some none ∧
    (∀ w ∈ blank_runs (strsep_scan '>' seg).1, w ≠ [] ∧ ' ' ∉ w ∧ '\t' ∉ w ∧ '\n' ∉ w) ∧
    (∀ child pid, Event.fork child pid ∈ (execute_command os st (some seg)).state.trace →
      Event.fork child pid ∈ st.trace ∨ ∃ full, child = child_program output full args) ∧
    (∀ (st0 : Shell) (o : Option Stream) (command : CStr), clean_whitespace command ≠ [] →
      parse_command st0 o command
        = .command st0 o (blank_runs command).length
            ((blank_runs command).map some ++ [none])) := by
  obtain ⟨hne, hargc, hargs, _⟩ := parse_segment_command_inv os st seg st1 output argc args hparse
  have hwords : blank_runs (strsep_scan '>' seg).1 ≠ [] :=
    fun e => hne ((clean_whitespace_nil_iff _).2 e)
  refine ⟨hne, hargs, hargc, ?_, ?_, ?_, ?_, ?_⟩
  · rw [hargc]
    exact List.length_pos.2 hwords
  · rw [hargs, hargc, List.get?_eq_getElem?,
      List.getElem?_append_right (by simp)]
    simp
  · intro w hw
    obtain ⟨h1, h2⟩ := blank_runs_words _ w hw
    refine ⟨h1, ?_, ?_, ?_⟩ <;>
    · intro hm
      have := h2 _ hm
      exact absurd this (by decide)
  · intro child pid hmem
    rw [execute_command_of_parse os st seg st1 output argc args hparse] at hmem
    rcases run_command_forks os st1 output argc args child pid hmem with h | h
    · exact Or.inl (parse_segment_command_forks os st seg st1 output argc args hparse child pid h)
    · exact Or.inr h
  · intro st0 o command hc
    rcases parse_command_cases st0 o command with ⟨he, _⟩ | ⟨_, h⟩
    · exact absurd he hc
    · exact h

/-- C12 on the segment `echo hi there` written with irregular blanks. -/
theorem argument_vector_is_words_witness :
    blank_runs (strsep_scan '>' seg_echo).1
      = ["echo".toList, "hi".toList, "there".toList] ∧
    [some "echo".toList, some "hi".toList, some "there".toList, none]
      = (blank_runs (strsep_scan '>' seg_echo).1).map some ++ [none] ∧
    (3 : Nat) = (blank_runs (strsep_scan '>' seg_echo).1).length :=
  ⟨by decide,
   (argument_vector_is_words os_plain (initial_shell dir_home) seg_echo (initial_shell dir_home)
     none 3 [some "echo".toList, some "hi".toList, some "there".toList, none] (by decide)).2.1,
   (argument_vector_is_words os_plain (initial_shell dir_home) seg_echo (initial_shell dir_home)
     none 3 [some "echo".toList, some "hi".toList, some "there".toList, none] (by decide)).2.2.1⟩

/-! ## More properties of the built-in commands -/

theorem run_command_builtin_defined (os : OS) (st1 : Shell) (o : Option Stream) (argc : Nat)
    (args : List (Option CStr)) (c : CStr) (slots : List (Option CStr))
    (hname : args.head? = some (some c))
    (hb : c = kw_exit ∨ c = kw_cd ∨ c = kw_path)
    (hpath : st1.path = some slots) :
    ∀ st2, run_command os st1 o argc args ≠ .undefined st2 := by
  intro st2
  have hne : kw_cd ≠ kw_exit := by decide
  have hne1 : kw_path ≠ kw_exit := by decide
  have hne2 : kw_path ≠ kw_cd := by decide
  rcases hb with hb | hb | hb
  · subst hb
    by_cases harg : argc = 1
    · simp [run_command, hname, harg]
    · simp [run_command, hname, harg, builtin_cleanup]
  · subst hb
    cases hch : sys_chdir os st1.trace (args.get? 1).join <;>
      (simp only [run_command, hname, if_neg hne, if_true, hch, builtin_cleanup]
       exact fun h => Outcome.noConfusion h)
  · subst hb
    simp [run_command, hname, hne1, hne2, hpath, builtin_cleanup]

/-- C14: a segment whose command name is `exit`, `cd` or `path`, with any
arguments, any redirection and any contents of the search-path block, makes
`execute_command` either return 0 or terminate the process with status 0, and
none of the events it adds to the history is a `fork`. -/
theorem builtin_never_forks (os : OS) (st : Shell) (seg : CStr) (st1 : Shell)
    (output : Option Stream) (argc : Nat) (args : List (Option CStr)) (c : CStr)
    (slots : List (Option CStr))
    (hparse : parse_segment os st seg = .command st1 output argc args)
    (hname : args.head? = some (some c))
    (hb : c = kw_exit ∨ c = kw_cd ∨ c = kw_path)
    (hpath : st.path = some slots) :
    ∃ st2 added,
      (execute_command os st (some seg) = .ret 0 st2 ∨
       execute_command os st (some seg) = .exited 0 st2) ∧
      st2.trace = st.trace ++ added ∧
      ∀ e ∈ added, e.is_fork = false := by
  have hp1 : st1.path = some slots := by
    rw [(parse_segment_path os st seg st1 output argc args hparse).1, hpath]
  have hopen : ∃ opened, st1.trace = st.trace ++ opened ∧ ∀ e ∈ opened, e.is_fork = false := by
    rcases parse_segment_trace os st seg st1 output argc args hparse with ⟨_, ht⟩ | ⟨f, _, ht⟩
    · exact ⟨[], by simp [ht], by simp⟩
    · exact ⟨[.fopen f true], ht, by simp [Event.is_fork]⟩
  obtain ⟨opened, hopen1, hopen2⟩ := hopen
  rw [execute_command_of_parse os st seg st1 output argc args hparse]
  rcases run_command_shape os st1 output argc args with ⟨body, hr, _⟩ | hr |
    ⟨st2, body, hr, ht, hq, _⟩ | ⟨pre, d, c2, hc2, h1, h2, h3, _⟩
  · exact absurd hr (run_command_builtin_defined os st1 output argc args c slots hname hb hp1 _)
  · refine ⟨_, opened ++ [.exit 0], Or.inr hr, by simp [hopen1], ?_⟩
    intro e he
    rcases List.mem_append.1 he with h | h
    · exact hopen2 e h
    · simp only [List.mem_singleton] at h; rw [h]; rfl
  · refine ⟨st2, opened ++ body ++ closing output, Or.inl hr, by simp [ht, hopen1], ?_⟩
    intro e he
    rcases List.mem_append.1 he with h | h
    · rcases List.mem_append.1 h with h | h
      · exact hopen2 e h
      · exact quiet_not_fork e (hq e h)
    · exact closing_not_fork output e h
  · rw [hname] at hc2
    simp only [Option.some.injEq] at hc2
    subst hc2
    rcases hb with hb | hb | hb
    · exact absurd hb h1
    · exact absurd hb h2
    · exact absurd hb h3

/-- C14 on the segment `cd /tmp > out`: the file is opened, the directory
changed, the file closed, 0 returned and nothing forked. -/
theorem builtin_never_forks_witness :
    ∃ st2 added,
      (execute_command os_plain (initial_shell dir_home) (some seg_cd_redirect) = .ret 0 st2 ∨
       execute_command os_plain (initial_shell dir_home) (some seg_cd_redirect)
         = .exited 0 st2) ∧
      st2.trace = (initial_shell dir_home).trace ++ added ∧
      ∀ e ∈ added, e.is_fork = false :=
  builtin_never_forks os_plain (initial_shell dir_home) seg_cd_redirect
    ((initial_shell dir_home).log (.fopen "out".toList true)) (some ⟨0, "out".toList⟩) 2
    [some kw_cd, some "/tmp".toList, none] kw_cd [some "/bin".toList, none]
    (by decide) (by decide) (by decide) (by decide)

/-! ## Properties of an empty command part -/

/-- C16: when the command part normalises to the empty string, a segment without
`>` is a silent no-op (0 is returned and the state is unchanged), and a segment
with `>` returns 0 after exactly one error message and no `fork`: the message
follows either nothing (rejected target), or a failed `fopen`, or a successful
`fopen` and the `fclose` of that stream. -/
theorem empty_command_part (os : OS) (st : Shell) (cmd raw : CStr)
    (hcmd : '>' ∉ cmd) (hempty : clean_whitespace cmd = []) :
    execute_command os st (some cmd) = .ret 0 st ∧
    (execute_command os st (some (cmd ++ '>' :: raw)) = .ret 0 (st.extend [.write_err]) ∨
     execute_command os st (some (cmd ++ '>' :: raw))
       = .ret 0 (st.extend [.fopen (clean_whitespace raw) false, .write_err]) ∨
     execute_command os st (some (cmd ++ '>' :: raw))
       = .ret 0 (st.extend [.fopen (clean_whitespace raw) true,
           .fclose ⟨st.trace.length, clean_whitespace raw⟩, .write_err])) := by
  have hpc : ∀ (st0 : Shell) (o : Option Stream), parse_command st0 o cmd
      = .returned (match o with
          | some f => st0.extend [.fclose f, .write_err]
          | none => st0) := by
    intro st0 o
    rcases parse_command_cases st0 o cmd with ⟨_, h⟩ | ⟨hne, _⟩
    · exact h
    · exact absurd hempty hne
  constructor
  · simp only [execute_command, parse_segment_no_redirect os st cmd hcmd, hpc]
  · simp only [execute_command, parse_segment_redirect os st cmd raw hcmd, hpc]
    by_cases hbad : (strchr_found (clean_whitespace raw) '>'
        || strchr_found (clean_whitespace raw) ' ') = true
    · left
      rw [if_pos hbad]
      rfl
    · rw [if_neg hbad]
      by_cases hopen : sys_fopen os st.trace (clean_whitespace raw) = true
      · right; right
        rw [if_pos hopen]
        simp only [log_extend]
      · right; left
        rw [if_neg hopen]
        simp [Shell.log, Shell.extend]

/-- C16 on the segment of blanks and on the segment `> out` after blanks. -/
theorem empty_command_part_witness :
    execute_command os_plain (initial_shell dir_home) (some "  ".toList)
      = .ret 0 (initial_shell dir_home) ∧
    (execute_command os_plain (initial_shell dir_home) (some seg_only_target)
       = .ret 0 ((initial_shell dir_home).extend [.write_err]) ∨
     execute_command os_plain (initial_shell dir_home) (some seg_only_target)
       = .ret 0 ((initial_shell dir_home).extend
           [.fopen (clean_whitespace " out".toList) false, .write_err]) ∨
     execute_command os_plain (initial_shell dir_home) (some seg_only_target)
       = .ret 0 ((initial_shell dir_home).extend
           [.fopen (clean_whitespace " out".toList) true,
            .fclose ⟨(initial_shell dir_home).trace.length, clean_whitespace " out".toList⟩,
            .write_err])) :=
  empty_command_part os_plain (initial_shell dir_home) "  ".toList " out".toList
    (by decide) (by decide)

/-! ## More properties of the redirection -/

/-- The launch loop on a well-formed block whose first executable candidate is
the one of index `k`. -/
theorem launch_found (os : OS) (c : CStr) (args : List (Option CStr)) (o : Option Stream)
    (ds : List CStr) (k : Nat) (st1 : Shell) (hk : k < ds.length)
    (hfail : ∀ i, i < k → os.access_x (st1.trace ++ probes_failed c (ds.take i))
      (full_path_of (ds.getD i []) c) = false)
    (hok : os.access_x (st1.trace ++ probes_failed c (ds.take k))
      (full_path_of (ds.getD k []) c) = true) :
    launch os c args o (ds.map some ++ [none]) st1
      = .ret (sys_fork os (st1.trace ++ probes_failed c (ds.take k) ++
              [.access (full_path_of (ds.getD k []) c) true]))
          (close_output o (st1.extend (probes_failed c (ds.take k) ++
            [.access (full_path_of (ds.getD k []) c) true,
             .fork (child_program o (full_path_of (ds.getD k []) c) args)
               (sys_fork os (st1.trace ++ probes_failed c (ds.take k) ++
                 [.access (full_path_of (ds.getD k []) c) true]))]))) := by
  have hd : ds.getD k [] = ds[k] := by
    simp [List.getD_eq_getElem?_getD, List.getElem?_eq_getElem hk]
  have hds : ds.take k ++ ds.getD k [] :: ds.drop (k + 1) = ds := by
    rw [hd, ← List.drop_eq_getElem_cons hk, List.take_append_drop]
  have hsplit : ds.map some ++ [none]
      = (ds.take k).map some ++ (some (ds.getD k []) :: ((ds.drop (k + 1)).map some ++ [none])) := by
    conv_lhs => rw [← hds]
    simp
  rw [hsplit, launch_skip]
  · simp only [launch, hok, if_true, Shell.log, Shell.extend, List.append_assoc,
      List.singleton_append]
  · intro i hi
    have hik : i < k := by simpa using (lt_of_lt_of_le hi (List.length_take_le _ _))
    have h := hfail i hik
    rw [List.take_take, Nat.min_eq_left (Nat.le_of_lt hik)]
    have hget : (ds.take k).getD i [] = ds.getD i [] := by
      simp [List.getD_eq_getElem?_getD, List.getElem?_take, hik]
    rw [hget]; exact h

/-- C17: for a segment that parses to an external command found at index `k` of
the search path: when the segment is `cmd > raw`, the target (the normalised
`raw`) is opened with `fopen(target, "w")` first, the child calls `dup2` of that
stream onto descriptor 1 and onto descriptor 2 and only then `execv`, and the
parent closes the stream; when the segment has no `>`, no `fopen` is made and the
child calls `execv` with no `dup2` before it. -/
theorem redirection_rewires_child (os : OS) (st : Shell) (seg : CStr) (st1 : Shell)
    (output : Option Stream) (argc : Nat) (args : List (Option CStr)) (c : CStr)
    (ds : List CStr) (k : Nat)
    (hparse : parse_segment os st seg = .command st1 output argc args)
    (hname : args.head? = some (some c))
    (hext : c ≠ kw_exit ∧ c ≠ kw_cd ∧ c ≠ kw_path)
    (hpath : st.path = some (ds.map some ++ [none]))
    (hk : k < ds.length)
    (hfail : ∀ i, i < k → os.access_x (st1.trace ++ probes_failed c (ds.take i))
      (full_path_of (ds.getD i []) c) = false)
    (hok : os.access_x (st1.trace ++ probes_failed c (ds.take k))
      (full_path_of (ds.getD k []) c) = true) :
    (∀ cmd raw, seg = cmd ++ '>' :: raw → '>' ∉ cmd →
      execute_command os st (some seg)
        = .ret (sys_fork os (st1.trace ++ probes_failed c (ds.take k) ++
                [.access (full_path_of (ds.getD k []) c) true]))
            (st.extend (.fopen (clean_whitespace raw) true :: probes_failed c (ds.take k) ++
              [.access (full_path_of (ds.getD k []) c) true,
               .fork [.dup2 ⟨st.trace.length, clean_whitespace raw⟩ 1,
                      .dup2 ⟨st.trace.length, clean_whitespace raw⟩ 2,
                      .execv (full_path_of (ds.getD k []) c) args, .write_err, .exit 1]
                 (sys_fork os (st1.trace ++ probes_failed c (ds.take k) ++
                   [.access (full_path_of (ds.getD k []) c) true])),
               .fclose ⟨st.trace.length, clean_whitespace raw⟩]))) ∧
    ('>' ∉ seg →
      execute_command os st (some seg)
        = .ret (sys_fork os (st1.trace ++ probes_failed c (ds.take k) ++
                [.access (full_path_of (ds.getD k []) c) true]))
            (st.extend (probes_failed c (ds.take k) ++
              [.access (full_path_of (ds.getD k []) c) true,
               .fork [.execv (full_path_of (ds.getD k []) c) args, .write_err, .exit 1]
                 (sys_fork os (st1.trace ++ probes_failed c (ds.take k) ++
                   [.access (full_path_of (ds.getD k []) c) true]))]))) := by
  have hp1 : st1.path = some (ds.map some ++ [none]) := by
    rw [(parse_segment_path os st seg st1 output argc args hparse).1, hpath]
  have hexec : execute_command os st (some seg)
      = launch os c args output (ds.map some ++ [none]) st1 := by
    rw [execute_command_of_parse os st seg st1 output argc args hparse,
      run_command_external os st1 output argc args c _ hname hext hp1]
  rw [hexec, launch_found os c args output ds k st1 hk hfail hok]
  obtain ⟨_, _, _, hcase⟩ := parse_segment_command_inv os st seg st1 output argc args hparse
  constructor
  · intro cmd raw hseg hcmd
    rcases hcase with ⟨hno, _, _⟩ | ⟨cmd2, raw2, hseg2, hcmd2, _, _, _, ho, hst1⟩
    · exact absurd (by rw [hseg]; simp) hno
    · have hpair : (cmd, some raw) = (cmd2, some raw2) := by
        rw [← strsep_scan_append '>' cmd raw hcmd, ← strsep_scan_append '>' cmd2 raw2 hcmd2,
          ← hseg, ← hseg2]
      simp only [Prod.mk.injEq, Option.some.injEq] at hpair
      rw [ho, hst1, ← hpair.2]
      simp [close_output, child_program, Shell.log, Shell.extend]
  · intro hno
    rcases hcase with ⟨_, ho, hst1⟩ | ⟨cmd2, raw2, hseg2, _, _⟩
    · rw [ho, hst1]
      simp [close_output, child_program]
    · exact absurd (by rw [hseg2]; simp) hno

/-- C17 on the segment `echo hi > out.txt` with `/bin/echo` executable. -/
theorem redirection_rewires_child_witness :
    execute_command os_bin_echo (initial_shell dir_home) (some seg_echo_redirect)
      = .ret 100 ((initial_shell dir_home).extend
          [.fopen "out.txt".toList true, .access "/bin/echo".toList true,
           .fork [.dup2 ⟨0, "out.txt".toList⟩ 1, .dup2 ⟨0, "out.txt".toList⟩ 2,
                  .execv "/bin/echo".toList [some "echo".toList, some "hi".toList, none],
                  .write_err, .exit 1] 100,
           .fclose ⟨0, "out.txt".toList⟩]) :=
  (redirection_rewires_child os_bin_echo (initial_shell dir_home) seg_echo_redirect
    ((initial_shell dir_home).log (.fopen "out.txt".toList true)) (some ⟨0, "out.txt".toList⟩) 2
    [some "echo".toList, some "hi".toList, none] "echo".toList ["/bin".toList] 0
    (by decide) (by decide) (by decide) (by decide) (by decide) (by decide) (by decide)).1
    "echo hi ".toList " out.txt".toList (by decide) (by decide)

theorem filter_stream_nil (l : List Event) (h : ∀ e ∈ l, e.is_stream = false) :
    l.filter Event.is_stream = [] := by
  rw [List.filter_eq_nil_iff]
  intro e he
  simp [h e he]

theorem run_command_trace_grows (os : OS) (st1 : Shell) (o : Option Stream) (argc : Nat)
    (args : List (Option CStr)) :
    ∃ added, (run_command os st1 o argc args).state.trace = st1.trace ++ added := by
  rcases run_command_shape os st1 o argc args with ⟨body, hr, _⟩ | hr | ⟨st2, body, hr, ht, _, _⟩ |
    ⟨pre, d, c, _, _, _, _, hr⟩
  · exact ⟨body, by rw [hr]; rfl⟩
  · exact ⟨[.exit 0], by rw [hr]; rfl⟩
  · exact ⟨body ++ closing o, by rw [hr]; simp [Outcome.state, ht]⟩
  · exact ⟨(probes_failed c pre ++
        [.access (full_path_of d c) true,
         .fork (child_program o (full_path_of d c) args)
           (sys_fork os (st1.trace ++ probes_failed c pre ++
             [.access (full_path_of d c) true]))]) ++ closing o,
      by rw [hr]; simp only [Outcome.state, close_output_trace, extend_trace,
        List.append_assoc]⟩

/-- When the second half of `execute_command` returns, the events it added are
events that touch no stream, followed by the closing of `output`. -/
theorem run_command_ret_streams (os : OS) (st1 : Shell) (o : Option Stream) (argc : Nat)
    (args : List (Option CStr)) (pid : Int) (st2 : Shell)
    (h : run_command os st1 o argc args = .ret pid st2) :
    ∃ body, st2.trace = st1.trace ++ body ++ closing o ∧ ∀ e ∈ body, e.is_stream = false := by
  rcases run_command_shape os st1 o argc args with ⟨body, hr, _⟩ | hr | ⟨st3, body, hr, ht, hq, _⟩ |
    ⟨pre, d, c, _, _, _, _, hr⟩
  · rw [hr] at h; exact Outcome.noConfusion h
  · rw [hr] at h; exact Outcome.noConfusion h
  · rw [hr] at h
    simp only [Outcome.ret.injEq] at h
    exact ⟨body, by rw [← h.2, ht], fun e he => quiet_not_stream e (hq e he)⟩
  · rw [hr] at h
    simp only [Outcome.ret.injEq] at h
    refine ⟨_, by rw [← h.2, close_output_trace, extend_trace], ?_⟩
    intro e he
    simp only [List.mem_append, List.mem_cons, List.mem_singleton] at he
    rcases he with he | he | he | he
    · exact quiet_not_stream e (probes_failed_quiet c pre e he)
    · rw [he]; rfl
    · rw [he]; rfl
    · exact absurd he (List.not_mem_nil _)

/-- C18: whenever `execute_command` returns, the stream events it added to the
history are none at all, or one failed `fopen`, or one successful `fopen`
followed by exactly one `fclose` of the stream that `fopen` returned; and for a
segment without `>` there is none. -/
theorem redirection_stream_closed_once (os : OS) (st : Shell) (seg : CStr) (pid : Int)
    (st2 : Shell) (h : execute_command os st (some seg) = .ret pid st2) :
    ∃ added, st2.trace = st.trace ++ added ∧
      (added.filter Event.is_stream = [] ∨
       (∃ f, added.filter Event.is_stream = [.fopen f false]) ∨
       (∃ f, added.filter Event.is_stream
          = [.fopen f true, .fclose ⟨st.trace.length, f⟩])) ∧
      ('>' ∉ seg → added.filter Event.is_stream = []) := by
  simp only [execute_command] at h
  cases hparse : parse_segment os st seg with
  | returned st1 =>
    rw [hparse] at h
    simp only [Outcome.ret.injEq] at h
    obtain ⟨_, hst⟩ := h
    subst hst
    rcases parse_segment_returned_inv os st seg st1 hparse with ⟨hno, _, hst⟩ |
      ⟨cmd, raw, hseg, _, hst | hst | ⟨_, hst⟩⟩
    · exact ⟨[], by simp [hst], Or.inl rfl, fun _ => rfl⟩
    · exact ⟨[.write_err], by rw [hst]; rfl, Or.inl rfl,
        fun hno => absurd (by rw [hseg]; simp) hno⟩
    · exact ⟨[.fopen (clean_whitespace raw) false, .write_err], by rw [hst]; rfl,
        Or.inr (Or.inl ⟨_, rfl⟩), fun hno => absurd (by rw [hseg]; simp) hno⟩
    · exact ⟨[.fopen (clean_whitespace raw) true,
          .fclose ⟨st.trace.length, clean_whitespace raw⟩, .write_err], by rw [hst]; rfl,
        Or.inr (Or.inr ⟨_, rfl⟩), fun hno => absurd (by rw [hseg]; simp) hno⟩
  | command st1 o argc args =>
    rw [hparse] at h
    simp only at h
    obtain ⟨body, ht, hb⟩ := run_command_ret_streams os st1 o argc args pid st2 h
    have hfb := filter_stream_nil body hb
    obtain ⟨_, _, _, hcase⟩ := parse_segment_command_inv os st seg st1 o argc args hparse
    rcases hcase with ⟨_, ho, hst1⟩ | ⟨cmd, raw, hseg, _, _, _, _, ho, hst1⟩
    · refine ⟨body, by rw [ht, ho, hst1]; simp [closing], Or.inl hfb, fun _ => hfb⟩
    · refine ⟨.fopen (clean_whitespace raw) true :: body ++
          [.fclose ⟨st.trace.length, clean_whitespace raw⟩], ?_, ?_, ?_⟩
      · rw [ht, ho, hst1]; simp [closing]
      · refine Or.inr (Or.inr ⟨clean_whitespace raw, ?_⟩)
        simp [List.filter_cons, List.filter_append, hfb, Event.is_stream]
      · exact fun hno => absurd (by rw [hseg]; simp) hno

/-- C18 on the segment `echo hi > out.txt`: the stream opened is closed once. -/
theorem redirection_stream_closed_once_witness :
    ∃ added, ((initial_shell dir_home).extend
          [.fopen "out.txt".toList true, .access "/bin/echo".toList true,
           .fork [.dup2 ⟨0, "out.txt".toList⟩ 1, .dup2 ⟨0, "out.txt".toList⟩ 2,
                  .execv "/bin/echo".toList [some "echo".toList, some "hi".toList, none],
                  .write_err, .exit 1] 100,
           .fclose ⟨0, "out.txt".toList⟩]).trace = (initial_shell dir_home).trace ++ added ∧
      (added.filter Event.is_stream = [] ∨
       (∃ f, added.filter Event.is_stream = [.fopen f false]) ∨
       (∃ f, added.filter Event.is_stream
          = [.fopen f true, .fclose ⟨(initial_shell dir_home).trace.length, f⟩])) ∧
      ('>' ∉ seg_echo_redirect → added.filter Event.is_stream = []) :=
  redirection_stream_closed_once os_bin_echo (initial_shell dir_home) seg_echo_redirect 100 _
    (by decide)

theorem clean_whitespace_mem_sub (s : CStr) (c : Char) (hc : c ≠ ' ')
    (h : c ∈ clean_whitespace s) : c ∈ s := by
  rw [clean_whitespace_eq] at h
  rcases sq_mem _ _ _ (rstrip_mem _ _ h) with e | e
  · exact absurd e hc
  · exact (List.dropWhile_suffix is_blank).subset e.1

/-- C19: for a segment `cmd > raw`: a target with another `>` or with a space
left after normalisation is rejected with nothing opened; a target without those
that `fopen` opens is opened as the very first event the call adds to the
history, whatever the command part is (empty, a built-in of any arity, `exit`,
found or not found); with an empty command part the call then closes the stream,
writes the error message and returns 0. -/
theorem redirection_opened_first (os : OS) (st : Shell) (cmd raw : CStr) (hcmd : '>' ∉ cmd) :
    (('>' ∈ raw ∨ ' ' ∈ clean_whitespace raw) →
      execute_command os st (some (cmd ++ '>' :: raw)) = .ret 0 (st.extend [.write_err])) ∧
    ('>' ∉ raw → ' ' ∉ clean_whitespace raw →
      sys_fopen os st.trace (clean_whitespace raw) = true →
      (∃ rest, (execute_command os st (some (cmd ++ '>' :: raw))).state.trace
        = st.trace ++ .fopen (clean_whitespace raw) true :: rest) ∧
      (clean_whitespace cmd = [] →
        execute_command os st (some (cmd ++ '>' :: raw))
          = .ret 0 (st.extend [.fopen (clean_whitespace raw) true,
              .fclose ⟨st.trace.length, clean_whitespace raw⟩, .write_err]))) := by
  constructor
  · intro hbad
    simp only [execute_command, parse_segment_bad_target os st cmd raw hcmd hbad]
    rfl
  · intro h1 h2 hopen
    have hgood : ¬ ((strchr_found (clean_whitespace raw) '>'
        || strchr_found (clean_whitespace raw) ' ') = true) := by
      rw [Bool.or_eq_true, strchr_found_iff, strchr_found_iff]
      rintro (h | h)
      · exact h1 (clean_whitespace_mem_sub raw '>' (by decide) h)
      · exact h2 h
    have hparse : parse_segment os st (cmd ++ '>' :: raw)
        = parse_command (st.log (.fopen (clean_whitespace raw) true))
            (some ⟨st.trace.length, clean_whitespace raw⟩) cmd := by
      rw [parse_segment_redirect os st cmd raw hcmd, if_neg hgood, if_pos hopen]
    rcases parse_command_cases (st.log (.fopen (clean_whitespace raw) true))
        (some ⟨st.trace.length, clean_whitespace raw⟩) cmd with ⟨he, h⟩ | ⟨hne, h⟩
    · have hexec : execute_command os st (some (cmd ++ '>' :: raw))
          = .ret 0 (st.extend [.fopen (clean_whitespace raw) true,
              .fclose ⟨st.trace.length, clean_whitespace raw⟩, .write_err]) := by
        simp only [execute_command, hparse, h, log_extend]
      exact ⟨⟨_, by rw [hexec]; rfl⟩, fun _ => hexec⟩
    · refine ⟨?_, fun he => absurd he hne⟩
      obtain ⟨added, hadd⟩ := run_command_trace_grows os
        (st.log (.fopen (clean_whitespace raw) true))
        (some ⟨st.trace.length, clean_whitespace raw⟩) (blank_runs cmd).length
        ((blank_runs cmd).map some ++ [none])
      refine ⟨added, ?_⟩
      simp only [execute_command, hparse, h, hadd]
      simp

/-- C19 on the segments `exit > out` and `> out`: the file is opened before the
process terminates, and before the empty command is reported. -/
theorem redirection_opened_first_witness :
    (∃ rest, (execute_command os_plain (initial_shell dir_home) (some seg_exit_redirect)).state.trace
      = (initial_shell dir_home).trace ++ .fopen (clean_whitespace " out".toList) true :: rest) ∧
    execute_command os_plain (initial_shell dir_home) (some seg_only_target)
      = .ret 0 ((initial_shell dir_home).extend [.fopen (clean_whitespace " out".toList) true,
          .fclose ⟨(initial_shell dir_home).trace.length, clean_whitespace " out".toList⟩,
          .write_err]) :=
  ⟨((redirection_opened_first os_plain (initial_shell dir_home) "exit ".toList " out".toList
      (by decide)).2 (by decide) (by decide) (by decide)).1,
   ((redirection_opened_first os_plain (initial_shell dir_home) "  ".toList " out".toList
      (by decide)).2 (by decide) (by decide) (by decide)).2 (by decide)⟩

/-! ## The search path after the built-in path -/

/-- The built-in `path` with no argument, when the block of `main` is valid and
`realloc` leaves it in place: the block then holds `NULL` only. -/
theorem path_no_arguments_in_place (os : OS) (st : Shell) (seg : CStr) (st1 : Shell)
    (o : Option Stream) (args : List (Option CStr)) (slots0 : List (Option CStr))
    (hparse : parse_segment os st seg = .command st1 o 1 args)
    (hname : args.head? = some (some kw_path))
    (hvalid : st.path = some slots0)
    (hstay : os.realloc_moves st1.trace 1 = false) :
    execute_command os st (some seg)
      = .ret 0 (close_output o { st1.log (.realloc 1 false) with path := some [none] }) := by
  rw [path_builtin_in_place os st seg st1 o 1 args slots0 hparse hname hvalid hstay]
  obtain ⟨_, hargc, hargs, _⟩ := parse_segment_command_inv os st seg st1 o 1 args hparse
  have hget : (args.get? 1).join = none := by
    rw [hargs, List.get?_eq_getElem?, List.getElem?_append_right (by simp [← hargc])]
    simp [← hargc]
  have hslots : (List.range 1).map (fun i => (args.get? (i + 1)).join) = [none] := by
    show [(args.get? 1).join] = [none]
    rw [hget]
  rw [hslots]

/-- With an empty search path (the block holds `NULL` only) every command that is
not a built-in is reported as not found: the error message, no probe, no `fork`,
return 0. -/
theorem empty_search_path_not_found (os : OS) (st : Shell) (seg : CStr) (st1 : Shell)
    (o : Option Stream) (argc : Nat) (args : List (Option CStr)) (c : CStr)
    (hparse : parse_segment os st seg = .command st1 o argc args)
    (hname : args.head? = some (some c))
    (hext : c ≠ kw_exit ∧ c ≠ kw_cd ∧ c ≠ kw_path)
    (hpath : st.path = some [none]) :
    execute_command os st (some seg) = .ret 0 (close_output o (st1.log .write_err)) := by
  have hp1 : st1.path = some [none] := by
    rw [(parse_segment_path os st seg st1 o argc args hparse).1, hpath]
  rw [execute_command_of_parse os st seg st1 o argc args hparse,
    run_command_external os st1 o argc args c _ hname hext hp1]
  rfl

/-- C11 at a concrete input: `path /a /b /c` under a relocating allocator leaves
`main` with a freed block; the line `path` that follows hands that freed block to
`realloc`, so the search path is not made empty: the behaviour is undefined. -/
theorem empty_path_after_relocation_undefined :
    process_line os_relocating (initial_shell dir_home) line_path_three
      = .next shell_after_relocation ∧
    process_line os_relocating shell_after_relocation line_path_none
      = .undefined { path := none, cwd := dir_home, trace := [.realloc 4 true],
                     calls := [some line_path_three, some line_path_none] } := by
  decide

/-! ## Failure of fork -/

/-- C13 at a concrete input: `ls` with `/bin/ls` executable and `fork` failing.
The call returns `-1` and the history it adds holds the probe and the `fork` only:
the error message is not written. -/
theorem fork_failure_is_silent :
    execute_command os_fork_fails (initial_shell dir_home) (some line_ls)
      = .ret (-1) ((initial_shell dir_home).extend
          [.access "/bin/ls".toList true,
           .fork [.execv "/bin/ls".toList [some "ls".toList, none], .write_err, .exit 1] (-1)]) ∧
    ((execute_command os_fork_fails (initial_shell dir_home) (some line_ls)).state.trace.filter
      Event.is_err).length ≠ 1 := by
  decide

/-- C15 at a concrete input: `ls` with `/bin/ls` executable and `fork` failing.
No child exists, yet the handle recorded for the segment is `-1`, not 0, and the
wait loop calls `waitpid(-1, NULL, 0)`. -/
theorem fork_failure_is_waited_for :
    dispatch_loop os_fork_fails 1 (initial_shell dir_home) (some line_ls) []
      = .complete
          { path := (initial_shell dir_home).path, cwd := dir_home,
            trace := [.access "/bin/ls".toList true,
              .fork [.execv "/bin/ls".toList [some "ls".toList, none], .write_err, .exit 1] (-1)],
            calls := [some line_ls] }
          [-1] ∧
    process_line os_fork_fails (initial_shell dir_home) line_ls
      = .next
          { path := (initial_shell dir_home).path, cwd := dir_home,
            trace := [.access "/bin/ls".toList true,
              .fork [.execv "/bin/ls".toList [some "ls".toList, none], .write_err, .exit 1] (-1),
              .waitpid (-1)],
            calls := [some line_ls] } := by
  decide

/-! ## The values of fork and the arguments of waitpid -/

theorem fork_pids_append (a b : List Event) : fork_pids (a ++ b) = fork_pids a ++ fork_pids b := by
  induction a with
  | nil => rfl
  | cons e a ih => cases e <;> simp [fork_pids, ih]

theorem waited_pids_append (a b : List Event) :
    waited_pids (a ++ b) = waited_pids a ++ waited_pids b := by
  induction a with
  | nil => rfl
  | cons e a ih => cases e <;> simp [waited_pids, ih]

theorem fork_pids_nil (l : List Event) (h : ∀ e ∈ l, e.is_fork = false) : fork_pids l = [] := by
  induction l with
  | nil => rfl
  | cons e l ih =>
    have he := h e (by simp)
    have hl := ih (fun x hx => h x (by simp [hx]))
    cases e <;> first | exact hl | exact Bool.noConfusion he

theorem waited_pids_nil (l : List Event) (h : ∀ e ∈ l, e.is_wait = false) :
    waited_pids l = [] := by
  induction l with
  | nil => rfl
  | cons e l ih =>
    have he := h e (by simp)
    have hl := ih (fun x hx => h x (by simp [hx]))
    cases e <;> first | exact hl | exact Bool.noConfusion he

theorem quiet_not_wait (e : Event) (h : e.is_quiet = true) : e.is_wait = false := by
  cases e <;> first | rfl | exact Bool.noConfusion h

theorem closing_not_wait (o : Option Stream) : ∀ e ∈ closing o, e.is_wait = false := by
  cases o <;> simp [closing, Event.is_wait]

/-- The events the second half of `execute_command` adds before it returns hold
no `waitpid`, and hold a `fork` exactly when the value returned is not 0: that one
`fork`, whose value is the one returned. -/
theorem run_command_pids (os : OS) (st1 : Shell) (o : Option Stream) (argc : Nat)
    (args : List (Option CStr)) (pid : Int) (st2 : Shell)
    (h : run_command os st1 o argc args = .ret pid st2) :
    ∃ added, st2.trace = st1.trace ++ added ∧
      fork_pids added = (if pid = 0 then [] else [pid]) ∧ waited_pids added = [] := by
  rcases run_command_shape os st1 o argc args with ⟨body, hr, _⟩ | hr | ⟨st3, body, hr, ht, hq, _⟩ |
    ⟨pre, d, c, _, _, _, _, hr⟩
  · rw [hr] at h; exact Outcome.noConfusion h
  · rw [hr] at h; exact Outcome.noConfusion h
  · rw [hr] at h
    simp only [Outcome.ret.injEq] at h
    refine ⟨body ++ closing o, by rw [← h.2, ht, List.append_assoc], ?_, ?_⟩
    · rw [← h.1, fork_pids_append, fork_pids_nil body (fun e he => quiet_not_fork e (hq e he)),
        fork_pids_nil _ (closing_not_fork o)]
      rfl
    · rw [waited_pids_append, waited_pids_nil body (fun e he => quiet_not_wait e (hq e he)),
        waited_pids_nil _ (closing_not_wait o)]
      rfl
  · rw [hr] at h
    simp only [Outcome.ret.injEq] at h
    have hp : ∀ e ∈ probes_failed c pre, e.is_quiet = true := probes_failed_quiet c pre
    refine ⟨(probes_failed c pre ++
        [.access (full_path_of d c) true,
         .fork (child_program o (full_path_of d c) args) pid]) ++ closing o, ?_, ?_, ?_⟩
    · rw [← h.2, close_output_trace, extend_trace, h.1, List.append_assoc]
    · rw [fork_pids_append, fork_pids_append,
        fork_pids_nil _ (fun e he => quiet_not_fork e (hp e he)),
        fork_pids_nil _ (closing_not_fork o)]
      have hne : pid ≠ 0 := by rw [← h.1]; exact sys_fork_ne_zero os _
      simp [fork_pids, hne]
    · rw [waited_pids_append, waited_pids_append,
        waited_pids_nil _ (fun e he => quiet_not_wait e (hp e he)),
        waited_pids_nil _ (closing_not_wait o)]
      rfl

theorem execute_command_pids (os : OS) (st : Shell) (command : Option CStr) (pid : Int)
    (st2 : Shell) (h : execute_command os st command = .ret pid st2) :
    ∃ added, st2.trace = st.trace ++ added ∧
      fork_pids added = (if pid = 0 then [] else [pid]) ∧ waited_pids added = [] := by
  cases command with
  | none => exact Outcome.noConfusion h
  | some seg =>
    simp only [execute_command] at h
    cases hparse : parse_segment os st seg with
    | returned st1 =>
      rw [hparse] at h
      simp only [Outcome.ret.injEq] at h
      obtain ⟨hpid, hst⟩ := h
      subst hst
      subst hpid
      rcases parse_segment_returned_inv os st seg st1 hparse with ⟨_, _, hst⟩ |
        ⟨cmd, raw, _, _, hst | hst | ⟨_, hst⟩⟩
      · exact ⟨[], by simp [hst], rfl, rfl⟩
      · exact ⟨[.write_err], by rw [hst]; rfl, rfl, rfl⟩
      · exact ⟨[.fopen (clean_whitespace raw) false, .write_err], by rw [hst]; rfl, rfl, rfl⟩
      · exact ⟨[.fopen (clean_whitespace raw) true,
          .fclose ⟨st.trace.length, clean_whitespace raw⟩, .write_err], by rw [hst]; rfl, rfl, rfl⟩
    | command st1 o argc args =>
      rw [hparse] at h
      simp only at h
      obtain ⟨added, ht, hf, hw⟩ := run_command_pids os st1 o argc args pid st2 h
      rcases parse_segment_trace os st seg st1 o argc args hparse with ⟨_, ht1⟩ | ⟨f, _, ht1⟩
      · exact ⟨added, by rw [ht, ht1], hf, hw⟩
      · refine ⟨.fopen f true :: added, by rw [ht, ht1]; simp, ?_, ?_⟩
        · simpa [fork_pids] using hf
        · simpa [waited_pids] using hw

theorem wait_all_trace (pids : List Int) : ∀ st : Shell,
    (wait_all pids st).trace
      = st.trace ++ (pids.filter (fun p => decide (p ≠ 0))).map Event.waitpid := by
  induction pids with
  | nil => intro st; simp [wait_all]
  | cons pid pids ih =>
    intro st
    by_cases hp : pid = 0
    · simp [wait_all, hp, ih]
    · simp [wait_all, hp, ih, Shell.log]

theorem dispatch_pids (os : OS) : ∀ (n : Nat) (st : Shell) (input : Option CStr)
    (pids : List Int) (st2 : Shell) (pids2 : List Int),
    dispatch_loop os n st input pids = .complete st2 pids2 →
    ∃ added fresh, st2.trace = st.trace ++ added ∧ pids2 = pids ++ fresh ∧
      fork_pids added = fresh.filter (fun p => decide (p ≠ 0)) ∧ waited_pids added = [] := by
  intro n
  induction n with
  | zero =>
    intro st input pids st2 pids2 h
    simp only [dispatch_loop, Dispatch.complete.injEq] at h
    exact ⟨[], [], by simp [h.1], by simp [h.2], rfl, rfl⟩
  | succ n ih =>
    intro st input pids st2 pids2 h
    simp only [dispatch_loop] at h
    split at h
    · rename_i pid st1 heq
      obtain ⟨a1, ht1, hf1, hw1⟩ := execute_command_pids os _ _ pid st1 heq
      obtain ⟨a2, fresh, ht2, hp2, hf2, hw2⟩ := ih _ _ _ _ _ h
      refine ⟨a1 ++ a2, pid :: fresh, ?_, ?_, ?_, ?_⟩
      · rw [ht2, ht1]; simp
      · rw [hp2]; simp
      · rw [fork_pids_append, hf1, hf2]
        by_cases hp : pid = 0 <;> simp [hp]
      · rw [waited_pids_append, hw1, hw2]; rfl
    · exact Dispatch.noConfusion h
    · exact Dispatch.noConfusion h

theorem waited_pids_map_waitpid (l : List Int) : waited_pids (l.map Event.waitpid) = l := by
  induction l with
  | nil => rfl
  | cons x l ih => simp [waited_pids, ih]

theorem fork_pids_map_waitpid (l : List Int) : fork_pids (l.map Event.waitpid) = [] := by
  induction l with
  | nil => rfl
  | cons x l ih => simp [fork_pids, ih]

/-- For every line processed to its end, the arguments of the calls of `waitpid`
are, in order, the values the calls of `fork` returned for that line: one wait for
each `fork`, whether it created a child or returned `-1`. -/
theorem waits_match_forks (os : OS) (st : Shell) (line : CStr) (st2 : Shell)
    (h : process_line os st line = .next st2) :
    ∃ added, st2.trace = st.trace ++ added ∧ waited_pids added = fork_pids added := by
  unfold process_line at h
  cases hd : dispatch_loop os (count_char line '&' + 1) st (some line) [] with
  | complete st3 pids =>
    rw [hd] at h
    simp only [finish_line, LineResult.next.injEq] at h
    obtain ⟨added, fresh, ht, hp, hf, hw⟩ := dispatch_pids os _ _ _ _ _ _ hd
    simp only [List.nil_append] at hp
    refine ⟨added ++ (pids.filter (fun p => decide (p ≠ 0))).map Event.waitpid, ?_, ?_⟩
    · rw [← h, wait_all_trace, ht, List.append_assoc]
    · rw [waited_pids_append, fork_pids_append, hw, waited_pids_map_waitpid,
        fork_pids_map_waitpid, hf, hp]
      simp
  | exited status st3 => rw [hd] at h; exact LineResult.noConfusion h
  | undefined st3 => rw [hd] at h; exact LineResult.noConfusion h

/-! ## The number of error messages a call writes -/

theorem closing_not_err (o : Option Stream) : (closing o).filter Event.is_err = [] := by
  cases o <;> simp [closing, Event.is_err]

theorem probes_failed_not_err (c : CStr) (ds : List CStr) :
    (probes_failed c ds).filter Event.is_err = [] := by
  rw [List.filter_eq_nil_iff]
  intro e he
  unfold probes_failed at he
  obtain ⟨d, _, rfl⟩ := List.mem_map.1 he
  simp [Event.is_err]

/-- Whenever `execute_command` returns, it has written the error message at most
once, and not at all when the value returned is not 0, that is on every path
through `fork`, the failure value `-1` included. -/
theorem errors_at_most_once (os : OS) (st : Shell) (command : Option CStr) (pid : Int)
    (st2 : Shell) (h : execute_command os st command = .ret pid st2) :
    ∃ added, st2.trace = st.trace ++ added ∧
      (added.filter Event.is_err).length ≤ 1 ∧
      (pid ≠ 0 → added.filter Event.is_err = []) := by
  cases command with
  | none => exact Outcome.noConfusion h
  | some seg =>
    simp only [execute_command] at h
    cases hparse : parse_segment os st seg with
    | returned st1 =>
      rw [hparse] at h
      simp only [Outcome.ret.injEq] at h
      obtain ⟨hpid, hst⟩ := h
      subst hst
      subst hpid
      rcases parse_segment_returned_inv os st seg st1 hparse with ⟨_, _, hst⟩ |
        ⟨cmd, raw, _, _, hst | hst | ⟨_, hst⟩⟩
      · exact ⟨[], by simp [hst], by simp, fun hne => absurd rfl hne⟩
      · exact ⟨[.write_err], by rw [hst]; rfl, by simp [List.filter_cons, Event.is_err],
          fun hne => absurd rfl hne⟩
      · exact ⟨[.fopen (clean_whitespace raw) false, .write_err], by rw [hst]; rfl,
          by simp [List.filter_cons, Event.is_err], fun hne => absurd rfl hne⟩
      · exact ⟨[.fopen (clean_whitespace raw) true,
          .fclose ⟨st.trace.length, clean_whitespace raw⟩, .write_err], by rw [hst]; rfl,
          by simp [List.filter_cons, Event.is_err], fun hne => absurd rfl hne⟩
    | command st1 o argc args =>
      rw [hparse] at h
      simp only at h
      have hopen : ∃ opened, st1.trace = st.trace ++ opened ∧
          opened.filter Event.is_err = [] := by
        rcases parse_segment_trace os st seg st1 o argc args hparse with ⟨_, ht⟩ | ⟨f, _, ht⟩
        · exact ⟨[], by simp [ht], rfl⟩
        · exact ⟨[.fopen f true], ht, by simp [List.filter_cons, Event.is_err]⟩
      obtain ⟨opened, hop1, hop2⟩ := hopen
      rcases run_command_shape os st1 o argc args with ⟨body, hr, _⟩ | hr |
        ⟨st3, body, hr, ht, _, hcount⟩ | ⟨pre, d, c, _, _, _, _, hr⟩
      · rw [hr] at h; exact Outcome.noConfusion h
      · rw [hr] at h; exact Outcome.noConfusion h
      · rw [hr] at h
        simp only [Outcome.ret.injEq] at h
        refine ⟨opened ++ body ++ closing o, by rw [← h.2, ht, hop1]; simp, ?_,
          fun hne => absurd h.1.symm hne⟩
        rw [List.filter_append, List.filter_append, hop2, closing_not_err]
        simpa using hcount
      · rw [hr] at h
        simp only [Outcome.ret.injEq] at h
        have hnone : (opened ++ (probes_failed c pre ++
            [Event.access (full_path_of d c) true,
             Event.fork (child_program o (full_path_of d c) args) pid]) ++ closing o).filter
              Event.is_err = [] := by
          rw [List.filter_append, List.filter_append, List.filter_append, hop2,
            closing_not_err, probes_failed_not_err]
          simp [List.filter_cons, Event.is_err]
        refine ⟨opened ++ (probes_failed c pre ++
            [Event.access (full_path_of d c) true,
             Event.fork (child_program o (full_path_of d c) args) pid]) ++ closing o, ?_, ?_,
          fun _ => hnone⟩
        · rw [← h.2, close_output_trace, extend_trace, h.1, hop1]
          simp
        · rw [hnone]; simp

end Wish
